import Mathlib

/-! Verification of `Firestore/core/src/firebase/firestore/util/async_queue.h`.

A shallow embedding of `Schedule<T, Duration>` and `AsyncQueue`.

Modelling conventions.

* A `TimePoint` is the tick count of a `std::chrono::time_point`, an integer; the
  default-constructed `TimePoint{}` is the epoch, tick `0`. The store only compares time
  points. `AsyncQueue` counts milliseconds in a signed 64-bit integer, and its one sum,
  `now + delay` in `EnqueueAfterDelay`, is taken in that type: it wraps in two's
  complement, which is what the compiled code does.
* `Schedule<T>` is represented by its `scheduled_` member, a `std::deque<Scheduled>`,
  as a list from `begin()` to `end()`. Every member function takes `mutex_` for its whole
  body, so each one is one atomic step on that list; `mutex_` and `cv_` carry no data.
* An iterator into `scheduled_` is its distance from `begin()`; `end()` is the length.
* An output parameter `T* const out` is represented by the content of the pointee before
  the call, and the content after the call is part of the result. The callers
  `assert(out)`, so the pointer is not null.
* A failed `assert` (and an `erase` out of range) is the result `none`.
* `unsigned int` is a natural number below `2 ^ 32`; `++` wraps.
* `PopBlocking` releases the lock while it waits. Each return from a wait is a `Wake`:
  the calls other threads made on the store in the meantime, whether `wait_until`
  reports a timeout, and the clock reading from then on; all three are arbitrary.
* A run of the queue is a sequence of atomic steps of the calling threads, the clock,
  the destructor and the worker thread on a state `Sys`. The callables are opaque to the
  queue, so each one is stored together with the number of its push; that number and the
  lists `popped` and `executed` are records for the statements and steer nothing.
-/

namespace firebase.firestore.util

/-! ## `Schedule<T, Duration>` -/

/-- The tick count of a `Schedule::TimePoint`. -/
abbrev TimePoint := Int

/-- The struct `Schedule::Scheduled`: a value and the time it is due. -/
structure Scheduled (T : Type) where
  value : T
  due : TimePoint
  deriving DecidableEq, Repr

/-- The member `Scheduled::operator<`: `due < rhs.due`. -/
def Scheduled.lt {T : Type} (lhs rhs : Scheduled T) : Bool :=
  decide (lhs.due < rhs.due)

/-- The member `scheduled_` of a `Schedule<T>`, from `begin()` to `end()`. -/
abbrev Schedule (T : Type) := List (Scheduled T)

/-- The loop of `std::upper_bound(first, last, val)` as the standard library writes it,
with `operator<` as the comparison: `len` is the length of the range still searched and
`first` its start; `half = len >> 1`, `middle = first + half`, and the search continues
in the left half when `val < *middle` and right of `middle` otherwise. The first argument
bounds the number of iterations; `len` iterations always suffice, since `len` at least
halves each time. -/
def upperBoundLoop {T : Type} (s : Schedule T) (val : Scheduled T) :
    Nat → Nat → Nat → Nat
  | 0, first, _ => first
  | fuel + 1, first, len =>
    if len = 0 then first
    else
      let half := len / 2
      let middle := first + half
      match s[middle]? with
      | none => first
      | some m =>
        if val.lt m then upperBoundLoop s val fuel first half
        else upperBoundLoop s val fuel (middle + 1) (len - half - 1)

/-- The call `std::upper_bound(scheduled_.begin(), scheduled_.end(), new_entry)`; the
result is the distance of the returned iterator from `begin()`. -/
def upper_bound {T : Type} (s : Schedule T) (val : Scheduled T) : Nat :=
  upperBoundLoop s val s.length 0 s.length

/-- The call `scheduled_.insert(pos, entry)` of `std::deque`: the entry is placed before
the element at `pos`. -/
def dequeInsert {T : Type} (s : Schedule T) (pos : Nat) (entry : Scheduled T) :
    Schedule T :=
  s.take pos ++ entry :: s.drop pos

/-- The member `Schedule::InsertPreservingOrder`. -/
def InsertPreservingOrder {T : Type} (new_entry : Scheduled T) (s : Schedule T) :
    Schedule T :=
  let insertion_point := upper_bound s new_entry
  dequeInsert s insertion_point new_entry

/-- The member `Schedule::Push` (both overloads). -/
def Push {T : Type} (value : T) (due : TimePoint) (s : Schedule T) : Schedule T :=
  InsertPreservingOrder ⟨value, due⟩ s

/-- The member `Schedule::HasDue`. -/
def HasDue {T : Type} (time : TimePoint) (s : Schedule T) : Bool :=
  match s with
  | [] => false
  | front :: _ => decide (time ≥ front.due)

/-- The member `Schedule::DoPop`, called with a non-null `out`: it asserts that the
store is not empty, moves the value at `where_` into `*out` and erases that entry. The
result is the new content of `*out` and the new store. -/
def DoPop {T : Type} (_out : T) (where_ : Nat) (s : Schedule T) : Option (T × Schedule T) :=
  if s.isEmpty then none
  else
    match s[where_]? with
    | none => none
    | some e => some (e.value, s.eraseIdx where_)

/-- The member `Schedule::PopIfDue`. The result is the returned flag, the content of
`*out` and the store after the call. -/
def PopIfDue {T : Type} (out : T) (time : TimePoint) (s : Schedule T) :
    Option (Bool × T × Schedule T) :=
  if HasDue time s then
    match DoPop out 0 s with
    | none => none
    | some (out', s') => some (true, out', s')
  else some (false, out, s)

/-- The call `std::find_if(scheduled_.begin(), scheduled_.end(), p)` where `p` applies
`pred` to the value of an entry: the distance from `begin()` of the first entry whose
value satisfies `pred`, and the length (`end()`) when there is none. -/
def find_if {T : Type} (pred : T → Bool) : Schedule T → Nat
  | [] => 0
  | e :: rest => if pred e.value then 0 else find_if pred rest + 1

/-- The member `Schedule::PopIf`. The result is the returned flag, the content of
`*out` and the store after the call. -/
def PopIf {T : Type} (out : T) (pred : T → Bool) (s : Schedule T) :
    Option (Bool × T × Schedule T) :=
  let found := find_if pred s
  if found ≠ s.length then
    match DoPop out found s with
    | none => none
    | some (out', s') => some (true, out', s')
  else some (false, out, s)

/-- The stored entries are sorted non-decreasingly by due time. -/
def SortedByDue {T : Type} (s : Schedule T) : Prop :=
  s.Pairwise (fun a b => a.due ≤ b.due)

instance {T : Type} (s : Schedule T) : Decidable (SortedByDue s) := by
  unfold SortedByDue; infer_instance

/-- One call on a `Schedule<T>` other than `PopBlocking`. -/
inductive StoreOp (T : Type) where
  | push (value : T) (due : TimePoint)
  | popIfDue (out : T) (time : TimePoint)
  | popIf (out : T) (pred : T → Bool)

/-- The store after one call. -/
def StoreOp.apply {T : Type} (op : StoreOp T) (s : Schedule T) : Option (Schedule T) :=
  match op with
  | .push value due => some (Push value due s)
  | .popIfDue out time => (PopIfDue out time s).map (fun r => r.2.2)
  | .popIf out pred => (PopIf out pred s).map (fun r => r.2.2)

/-- The store after a sequence of calls, made one after the other. -/
def runStoreOps {T : Type} : List (StoreOp T) → Schedule T → Option (Schedule T)
  | [], s => some s
  | op :: ops, s =>
    match op.apply s with
    | none => none
    | some s' => runStoreOps ops s'

/-- Successive calls `PopIfDue(&out, t)`, one for each time of the list, on the same
output cell: the flag each call returned together with the content of `*out` after it,
then the final content of `*out` and the final store. -/
def popIfDueEach {T : Type} :
    List TimePoint → T → Schedule T → Option (List (Bool × T) × T × Schedule T)
  | [], out, s => some ([], out, s)
  | t :: ts, out, s =>
    match PopIfDue out t s with
    | none => none
    | some (flag, out', s') =>
      match popIfDueEach ts out' s' with
      | none => none
      | some (results, out'', s'') => some ((flag, out') :: results, out'', s'')

/-- The store after the calls `Push(v, due)` for the pairs of the list, in that order. -/
def pushEach {T : Type} (pushes : List (Scheduled T)) (s : Schedule T) : Schedule T :=
  pushes.foldl (fun acc p => Push p.value p.due acc) s

/-- The stable sort of a sequence of entries by due time: non-decreasing due time and,
among equal due times, the order of the sequence. -/
def stableSortByDue {T : Type} (l : List (Scheduled T)) : List (Scheduled T) :=
  l.mergeSort (fun a b => decide (a.due ≤ b.due))

/-! ## `AsyncQueue` -/

/-- The type `AsyncQueue::Operation`, a `std::function<void()>` over callables `P`:
`none` is the empty function. -/
abbrev Operation (P : Type) := Option P

/-- The type `DelayedOperation::Id`, an `unsigned int`. -/
abbrev Id := Nat

/-- The number of values of an `unsigned int`. -/
def idModulus : Nat := 2 ^ 32

/-- The struct `AsyncQueue::Entry`. -/
structure Entry (P : Type) where
  operation : Operation P
  id : Id
  deriving DecidableEq, Repr

/-- The default constructor `Entry()`: an empty operation, and `id{}` is zero. -/
def Entry.default {P : Type} : Entry P := ⟨none, 0⟩

/-- The class `DelayedOperation`: `queue_` is the address of the queue. -/
structure DelayedOperation where
  queue_ : Nat
  id_ : Id
  deriving DecidableEq, Repr

/-- The data members of an `AsyncQueue`; `worker_thread_` carries no data. -/
structure AsyncQueue (P : Type) where
  schedule_ : Schedule (Entry P)
  shutting_down_ : Bool
  current_id_ : Nat
  deriving DecidableEq, Repr

/-- The member `AsyncQueue::NextId`: `current_id_++` returns the value before the
increment, and the increment wraps. -/
def NextId {P : Type} (q : AsyncQueue P) : Id × AsyncQueue P :=
  (q.current_id_, { q with current_id_ := (q.current_id_ + 1) % idModulus })

/-- The member `AsyncQueue::DoEnqueue`. -/
def DoEnqueue {P : Type} (operation : Operation P) (when_ : TimePoint) (q : AsyncQueue P) :
    Id × AsyncQueue P :=
  let (id, q1) := NextId q
  (id, { q1 with schedule_ := Push ⟨operation, id⟩ when_ q1.schedule_ })

/-- The member `AsyncQueue::Enqueue`; `TimePoint{}` is tick `0`. -/
def Enqueue {P : Type} (operation : Operation P) (q : AsyncQueue P) : AsyncQueue P :=
  (DoEnqueue operation 0 q).2

/-- The value that a signed 64-bit count takes for the exact result `x`: the number in
the range from `-2 ^ 63` up to `2 ^ 63` that differs from `x` by a multiple of
`2 ^ 64`. -/
def wrapInt64 (x : Int) : Int :=
  (x + 9223372036854775808) % 18446744073709551616 - 9223372036854775808

/-- The values of a signed 64-bit count. -/
def IsInt64 (x : Int) : Prop :=
  -9223372036854775808 ≤ x ∧ x < 9223372036854775808

instance (x : Int) : Decidable (IsInt64 x) := by
  unfold IsInt64; infer_instance

/-- The sum `now + delay` of a `TimePoint` and a `Milliseconds` of `AsyncQueue`, both
signed 64-bit counts of milliseconds. -/
def timePointPlus (now : TimePoint) (delay : Int) : TimePoint :=
  wrapInt64 (now + delay)

/-- The member `AsyncQueue::EnqueueAfterDelay`, called on the queue at address `this`
when `system_clock::now()`, cast to milliseconds, reads `now`. -/
def EnqueueAfterDelay {P : Type} (this : Nat) (now : TimePoint) (delay : Int)
    (operation : Operation P) (q : AsyncQueue P) : DelayedOperation × AsyncQueue P :=
  let (id, q') := DoEnqueue operation (timePointPlus now delay) q
  (⟨this, id⟩, q')

/-- The member `AsyncQueue::TryCancel`, a `void` function: the flag that `PopIf` returns
is dropped, and so is the entry moved into `discard`. -/
def TryCancel {P : Type} (id : Id) (q : AsyncQueue P) : Option (Unit × AsyncQueue P) :=
  let discard : Entry P := Entry.default
  match PopIf discard (fun e => e.id == id) q.schedule_ with
  | none => none
  | some (_, _, s') => some ((), { q with schedule_ := s' })

/-- The calls `TryCancel(id)` for the ids of the list, in that order. -/
def tryCancelEach {P : Type} : List Id → AsyncQueue P → Option (AsyncQueue P)
  | [], q => some q
  | id :: ids, q =>
    match TryCancel id q with
    | none => none
    | some (_, q') => tryCancelEach ids q'

/-- One submission: `Enqueue(operation)`, or `EnqueueAfterDelay(delay, operation)` made
when the clock reads `now`. -/
inductive Submission (P : Type) where
  | immediate (operation : Operation P)
  | delayed (now : TimePoint) (delay : Int) (operation : Operation P)
  deriving DecidableEq, Repr

/-- The queue after one submission. -/
def Submission.apply {P : Type} (this : Nat) (c : Submission P) (q : AsyncQueue P) :
    AsyncQueue P :=
  match c with
  | .immediate operation => Enqueue operation q
  | .delayed now delay operation => (EnqueueAfterDelay this now delay operation q).2

/-- The queue after a sequence of submissions, made one after the other. -/
def submitEach {P : Type} (this : Nat) (cs : List (Submission P)) (q : AsyncQueue P) :
    AsyncQueue P :=
  cs.foldl (fun acc c => c.apply this acc) q

/-- The operations submitted with `Enqueue`, in submission order. -/
def immediateOps {P : Type} : List (Submission P) → List (Operation P)
  | [] => []
  | .immediate operation :: cs => operation :: immediateOps cs
  | .delayed _ _ _ :: cs => immediateOps cs

/-- The operations submitted with `EnqueueAfterDelay`, in submission order. -/
def delayedOps {P : Type} : List (Submission P) → List (Operation P)
  | [] => []
  | .immediate _ :: cs => delayedOps cs
  | .delayed _ _ operation :: cs => operation :: delayedOps cs

/-- Every delayed submission of the list is due later than `TimePoint{}`. -/
def delayedAfterEpoch {P : Type} : List (Submission P) → Prop
  | [] => True
  | .immediate _ :: cs => delayedAfterEpoch cs
  | .delayed now delay _ :: cs => 0 < timePointPlus now delay ∧ delayedAfterEpoch cs

instance decidableDelayedAfterEpoch {P : Type} :
    ∀ cs : List (Submission P), Decidable (delayedAfterEpoch cs)
  | [] => isTrue trivial
  | .immediate _ :: cs => decidableDelayedAfterEpoch cs
  | .delayed now delay _ :: cs =>
    match (inferInstance : Decidable (0 < timePointPlus now delay)),
      decidableDelayedAfterEpoch cs with
    | isTrue h₁, isTrue h₂ => isTrue ⟨h₁, h₂⟩
    | isFalse h₁, _ => isFalse (fun h => h₁ h.1)
    | _, isFalse h₂ => isFalse (fun h => h₂ h.2)

/-- The shape of a store built from immediate and delayed submissions: entries due at
the epoch first, entries due later behind them, sorted as a whole. -/
structure ImmediateFirst {T : Type} (s imm del : Schedule T) : Prop where
  split : s = imm ++ del
  sorted : SortedByDue s
  imm_due : ∀ e ∈ imm, e.due = 0
  del_due : ∀ e ∈ del, 0 < e.due

/-- The constructor `AsyncQueue()`: an empty store, `shutting_down_{false}` and
`current_id_{0}`. -/
def AsyncQueue.fresh {P : Type} : AsyncQueue P := ⟨[], false, 0⟩

/-- The member `AsyncQueue::UnblockQueue`; `noop` is the callable `[] {}`. -/
def UnblockQueue {P : Type} (noop : P) (q : AsyncQueue P) : AsyncQueue P :=
  { q with schedule_ := Push ⟨some noop, 0⟩ 0 q.schedule_ }

/-- The id that a submission is given: the value `DoEnqueue` returns, which
`EnqueueAfterDelay` puts into the handle. -/
def Submission.assignedId {P : Type} (this : Nat) (c : Submission P) (q : AsyncQueue P) :
    Id :=
  match c with
  | .immediate operation => (DoEnqueue operation 0 q).1
  | .delayed now delay operation => (EnqueueAfterDelay this now delay operation q).1.id_

/-- The ids given to a sequence of submissions, made one after the other. -/
def submitIds {P : Type} (this : Nat) : List (Submission P) → AsyncQueue P → List Id
  | [], _ => []
  | c :: cs, q => c.assignedId this q :: submitIds this cs (c.apply this q)

/-! ## `Schedule::PopBlocking` -/

/-- One return from a wait on `cv_` inside `PopBlocking`. While the thread waited the
lock was released: `ops` are the calls other threads made on the store in that time.
`timedOut` tells whether a `wait_until` reports `cv_status::timeout`, and `now` is what
the clock reads from this wake-up on. A notification, a spurious wake-up and a timeout
are all of this form. -/
structure Wake (T : Type) where
  ops : List (StoreOp T)
  timedOut : Bool
  now : TimePoint

/-- Where a thread inside `PopBlocking` is blocked: in `cv_.wait` until the store is
not empty, or in `cv_.wait_until` with the deadline `until` it read off the front (written `until_`). -/
inductive Parked where
  | nonEmptyWait
  | dueWait (until_ : TimePoint)
  deriving DecidableEq, Repr

/-- How far a call of `PopBlocking` got: it returned with `*out` and the store as
given; or the wake-ups ran out while it was blocked at `place` with the store as given;
or an assertion failed, or `front()` or `erase` was used out of range. -/
inductive Blocking (T : Type) where
  | returned (out : T) (s : Schedule T)
  | parked (place : Parked) (s : Schedule T)
  | failed
  deriving DecidableEq, Repr

/-- The lines `DoPop(out, scheduled_.begin()); return;` of `PopBlocking`. -/
def popFront {T : Type} (out : T) (s : Schedule T) : Blocking T :=
  match DoPop out 0 s with
  | none => .failed
  | some (out', s') => .returned out' s'

/-- The body of `while (true)` in `PopBlocking`, run with the lock held and the clock
reading `now`, up to the first wait or the return. `cv_.wait(lock, pred)` tests `pred`
before it waits, and so does `cv_.wait_until(lock, until, pred)`. -/
def fromTop {T : Type} (now : TimePoint) (out : T) (s : Schedule T) : Blocking T :=
  if s.isEmpty then .parked .nonEmptyWait s
  else
    match s.head? with
    | none => .failed
    | some front =>
      let until_ := front.due
      if HasDue now s then popFront out s
      else .parked (.dueWait until_) s

/-- What a thread blocked at `place` does after the wake-up `w`, on the store `s` that
the other threads left. In `cv_.wait` the predicate is tested again. In
`cv_.wait_until` a timeout returns `pred()`, and when that is false the outer loop
starts over; without a timeout the predicate is tested and the thread waits again with
the same deadline when it is false. -/
def afterWake {T : Type} (place : Parked) (w : Wake T) (out : T) (s : Schedule T) :
    Blocking T :=
  match place with
  | .nonEmptyWait => fromTop w.now out s
  | .dueWait until_ =>
    if HasDue w.now s then popFront out s
    else if w.timedOut then fromTop w.now out s
    else .parked (.dueWait until_) s

/-- A thread blocked at `place` inside `PopBlocking`, over the wake-ups to come. -/
def PopBlockingLoop {T : Type} :
    List (Wake T) → Parked → T → Schedule T → Blocking T
  | [], place, _, s => .parked place s
  | w :: ws, place, out, s =>
    match runStoreOps w.ops s with
    | none => .failed
    | some s1 =>
      match afterWake place w out s1 with
      | .returned out' s' => .returned out' s'
      | .parked place' s' => PopBlockingLoop ws place' out s'
      | .failed => .failed

/-- The member `Schedule::PopBlocking`, entered when the clock reads `now`, over the
wake-ups `events` of its waits. -/
def PopBlocking {T : Type} (events : List (Wake T)) (now : TimePoint) (out : T)
    (s : Schedule T) : Blocking T :=
  match fromTop now out s with
  | .returned out' s' => .returned out' s'
  | .parked place s' => PopBlockingLoop events place out s'
  | .failed => .failed

/-- The store after the calls that other threads made during the given wake-ups. -/
def storeAfterWakes {T : Type} : List (Wake T) → Schedule T → Option (Schedule T)
  | [], s => some s
  | w :: ws, s =>
    match runStoreOps w.ops s with
    | none => none
    | some s' => storeAfterWakes ws s'

/-- The clock reading after the given wake-ups, `now` when there are none. -/
def lastReading {T : Type} (events : List (Wake T)) (now : TimePoint) : TimePoint :=
  (events.map (fun w => w.now)).getLastD now

/-! ## The queue with its worker thread -/

/-- Where the worker thread stands in `AsyncQueue::Worker`: at the test
`!shutting_down_` of the loop; inside `schedule_.PopBlocking(&entry)`; back from it with
`entry`, about to invoke the operation (`due` records the due time the entry was
stored with); or out of the loop. -/
inductive WorkerPc (P : Type) where
  | loopTest
  | popBlocking
  | invoke (entry : Entry P) (due : TimePoint)
  | exited
  deriving DecidableEq, Repr

/-- One invocation `entry.operation()` by the worker: the callable and the number of
its submission, the id of the entry and the due time it was stored with. -/
structure Executed (P : Type) where
  seq : Nat
  payload : P
  id : Id
  due : TimePoint
  deriving DecidableEq, Repr

/-- The invocation that a popped entry gives rise to; none for an empty operation,
since the worker invokes `entry.operation` only `if (entry.operation)`. -/
def toExecuted {P : Type} (e : Scheduled (Entry (Nat × P))) : Option (Executed P) :=
  match e.value.operation with
  | none => none
  | some (seq, payload) => some ⟨seq, payload, e.value.id, e.due⟩

/-- The queue together with its surroundings: the system clock, the worker thread, and
three records kept for the statements only. Every callable pushed is stored with the
number `submitted` of pushes before it; `popped` lists the entries the worker took out
of the store and `executed` the invocations it made, both in order. -/
structure Sys (P : Type) where
  queue : AsyncQueue (Nat × P)
  clock : TimePoint
  worker : WorkerPc (Nat × P)
  submitted : Nat
  popped : List (Scheduled (Entry (Nat × P)))
  executed : List (Executed P)
  deriving DecidableEq, Repr

/-- A queue right after construction, with the clock at `now`: the worker thread has
been started and stands at the loop test. -/
def Sys.fresh {P : Type} (now : TimePoint) : Sys P :=
  ⟨AsyncQueue.fresh, now, .loopTest, 0, [], []⟩

/-- One atomic step of a run: a call of `Enqueue`, `EnqueueAfterDelay` or `TryCancel`
by some thread, a new reading of the clock, one of the two statements
`shutting_down_ = true` and `UnblockQueue()` of the destructor, or a step of the worker
thread. -/
inductive Step (P : Type) where
  | enqueue (operation : Operation P)
  | enqueueAfterDelay (delay : Int) (operation : Operation P)
  | tryCancel (id : Id)
  | clock (now : TimePoint)
  | setShuttingDown
  | unblockQueue (noop : P)
  | worker
  deriving DecidableEq, Repr

/-- One step of the worker thread. At the loop test it leaves the loop when
`shutting_down_` is set and enters `PopBlocking` otherwise. Inside `PopBlocking` it
returns with the front entry when `PopBlocking` returns at the present clock reading,
and stays blocked otherwise. With an entry in hand it invokes the operation when that
is not empty and goes back to the loop test. -/
def Sys.workerStep {P : Type} (σ : Sys P) : Sys P :=
  match σ.worker with
  | .loopTest =>
    if σ.queue.shutting_down_ then { σ with worker := .exited }
    else { σ with worker := .popBlocking }
  | .popBlocking =>
    match PopBlocking [] σ.clock Entry.default σ.queue.schedule_ with
    | .returned entry s' =>
      let due := match σ.queue.schedule_ with
        | [] => 0
        | front :: _ => front.due
      { σ with
        queue := { σ.queue with schedule_ := s' }
        worker := .invoke entry due
        popped := σ.popped ++ [⟨entry, due⟩] }
    | _ => σ
  | .invoke entry due =>
    { σ with
      worker := .loopTest
      executed := σ.executed ++ (toExecuted ⟨entry, due⟩).toList }
  | .exited => σ

/-- The state after one step. The handle of `EnqueueAfterDelay` is dropped, so the
address of the queue plays no part and is taken to be `0`. -/
def Sys.step {P : Type} (st : Step P) (σ : Sys P) : Sys P :=
  match st with
  | .enqueue operation =>
    { σ with
      queue := Enqueue (operation.map (fun p => (σ.submitted, p))) σ.queue
      submitted := σ.submitted + 1 }
  | .enqueueAfterDelay delay operation =>
    { σ with
      queue := (EnqueueAfterDelay 0 σ.clock delay
        (operation.map (fun p => (σ.submitted, p))) σ.queue).2
      submitted := σ.submitted + 1 }
  | .tryCancel id =>
    match TryCancel id σ.queue with
    | none => σ
    | some (_, q') => { σ with queue := q' }
  | .clock now => { σ with clock := now }
  | .setShuttingDown => { σ with queue := { σ.queue with shutting_down_ := true } }
  | .unblockQueue noop =>
    { σ with
      queue := UnblockQueue (σ.submitted, noop) σ.queue
      submitted := σ.submitted + 1 }
  | .worker => σ.workerStep

/-- The state after a sequence of steps. -/
def Sys.run {P : Type} (steps : List (Step P)) (σ : Sys P) : Sys P :=
  steps.foldl (fun acc st => acc.step st) σ

/-- The due time of the entry that a step pushes, if it pushes one. -/
def Step.pushedDue {P : Type} (st : Step P) (σ : Sys P) : Option TimePoint :=
  match st with
  | .enqueue _ => some 0
  | .enqueueAfterDelay delay _ => some (timePointPlus σ.clock delay)
  | .unblockQueue _ => some 0
  | _ => none

/-- No step of the run pushes an entry that is due earlier than an entry the worker has
popped before that step. -/
def noPushBeforePopped {P : Type} : List (Step P) → Sys P → Prop
  | [], _ => True
  | st :: steps, σ =>
    (∀ d ∈ st.pushedDue σ, ∀ e ∈ σ.popped, e.due ≤ d) ∧
      noPushBeforePopped steps (σ.step st)

instance decidableNoPushBeforePopped {P : Type} :
    ∀ (steps : List (Step P)) (σ : Sys P), Decidable (noPushBeforePopped steps σ)
  | [], _ => isTrue trivial
  | st :: steps, σ =>
    match (inferInstance : Decidable (∀ d ∈ st.pushedDue σ, ∀ e ∈ σ.popped, e.due ≤ d)),
      decidableNoPushBeforePopped steps (σ.step st) with
    | isTrue h₁, isTrue h₂ => isTrue ⟨h₁, h₂⟩
    | isFalse h₁, _ => isFalse (fun h => h₁ h.1)
    | _, isFalse h₂ => isFalse (fun h => h₂ h.2)

/-- The order of execution claimed for the queue: by due time, and by submission among
equal due times. -/
def ExecutedInOrder {P : Type} (a b : Executed P) : Prop :=
  a.due ≤ b.due ∧ (a.due = b.due → a.seq < b.seq)

instance {P : Type} (a b : Executed P) : Decidable (ExecutedInOrder a b) := by
  unfold ExecutedInOrder; infer_instance

/-- What is left for the worker to do from the state `σ` on once `shutting_down_` is
set, as a relation to a later state `σ'`. Out of the loop it stays out. At the loop test
it pops and invokes nothing more. With an entry in hand it pops nothing more and invokes
at most that entry. Inside `PopBlocking` it pops at most one entry `x` and invokes at
most that one. -/
def Sys.windsDown {P : Type} (σ σ' : Sys P) : Prop :=
  match σ.worker with
  | .exited => σ'.worker = .exited ∧ σ'.popped = σ.popped ∧ σ'.executed = σ.executed
  | .loopTest =>
    (σ'.worker = .loopTest ∨ σ'.worker = .exited) ∧ σ'.popped = σ.popped ∧
      σ'.executed = σ.executed
  | .invoke entry due =>
    σ'.popped = σ.popped ∧
      ((σ'.worker = .invoke entry due ∧ σ'.executed = σ.executed) ∨
        ((σ'.worker = .loopTest ∨ σ'.worker = .exited) ∧
          σ'.executed = σ.executed ++ (toExecuted ⟨entry, due⟩).toList))
  | .popBlocking =>
    (σ'.worker = .popBlocking ∧ σ'.popped = σ.popped ∧ σ'.executed = σ.executed) ∨
      ∃ x, σ'.popped = σ.popped ++ [x] ∧
        ((σ'.worker = .invoke x.value x.due ∧ σ'.executed = σ.executed) ∨
          ((σ'.worker = .loopTest ∨ σ'.worker = .exited) ∧
            σ'.executed = σ.executed ++ (toExecuted x).toList))

/-- The number of its push that an entry was stored with, if its operation is not
empty. -/
def seqOf {P : Type} (e : Scheduled (Entry (Nat × P))) : Option Nat :=
  e.value.operation.map Prod.fst

/-- The order in which entries leave the store: by due time, and by the number of the
push among equal due times. -/
def StoredInOrder {P : Type} (a b : Scheduled (Entry (Nat × P))) : Prop :=
  a.due ≤ b.due ∧ (a.due = b.due → ∀ i j, seqOf a = some i → seqOf b = some j → i < j)

/-- What holds of every state of a run in which no push is due before an entry popped
earlier: the popped entries followed by the stored ones are in order, every number
stored is below the count of pushes, and the invocations made are those of the popped
entries, the one in hand left out. -/
structure Sys.Ordered {P : Type} (σ : Sys P) : Prop where
  inOrder : (σ.popped ++ σ.queue.schedule_).Pairwise StoredInOrder
  seqBound : ∀ e ∈ σ.popped ++ σ.queue.schedule_, ∀ i, seqOf e = some i → i < σ.submitted
  invoked : match σ.worker with
    | .invoke entry due =>
      ∃ before, σ.popped = before ++ [⟨entry, due⟩] ∧
        σ.executed = before.filterMap toExecuted
    | _ => σ.executed = σ.popped.filterMap toExecuted

/-- What the store guarantees of two entries that leave it one after the other,
whatever is pushed in between: the second was pushed later or is due later. -/
def StoredNoOvertake {P : Type} (a b : Scheduled (Entry (Nat × P))) : Prop :=
  ∀ i j, seqOf a = some i → seqOf b = some j → i < j ∨ a.due < b.due

/-- What holds of every state of every run: the store is sorted by due time, of the
popped entries followed by the stored ones none overtakes an earlier one that is due no
later, every number stored is below the count of pushes, and the invocations made are
those of the popped entries, the one in hand left out. -/
structure Sys.Stable {P : Type} (σ : Sys P) : Prop where
  sorted : SortedByDue σ.queue.schedule_
  noOvertake : (σ.popped ++ σ.queue.schedule_).Pairwise StoredNoOvertake
  seqBound : ∀ e ∈ σ.popped ++ σ.queue.schedule_, ∀ i, seqOf e = some i → i < σ.submitted
  invoked : match σ.worker with
    | .invoke entry due =>
      ∃ before, σ.popped = before ++ [⟨entry, due⟩] ∧
        σ.executed = before.filterMap toExecuted
    | _ => σ.executed = σ.popped.filterMap toExecuted

/-! ## Lemmas on the store -/

section StoreLemmas

variable {T : Type}

theorem sortedByDue_getElem_le {s : Schedule T} (h : SortedByDue s) {i j : Nat}
    (hij : i ≤ j) (hj : j < s.length) :
    (s[i]).due ≤ (s[j]).due := by
  rcases Nat.eq_or_lt_of_le hij with rfl | hlt
  · exact le_refl _
  · exact (List.pairwise_iff_getElem.mp h) i j (by omega) hj hlt

/-- The binary search keeps its bracket: left of the result every due time is at most
that of `val`, from the result on every due time is greater. -/
theorem upperBoundLoop_spec (s : Schedule T) (val : Scheduled T) (hs : SortedByDue s) :
    ∀ fuel first len, len ≤ fuel → first + len ≤ s.length →
      (∀ i (hi : i < s.length), i < first → (s[i]).due ≤ val.due) →
      (∀ i (hi : i < s.length), first + len ≤ i → val.due < (s[i]).due) →
      (∀ i (hi : i < s.length), i < upperBoundLoop s val fuel first len →
          (s[i]).due ≤ val.due) ∧
      (∀ i (hi : i < s.length), upperBoundLoop s val fuel first len ≤ i →
          val.due < (s[i]).due) ∧
      upperBoundLoop s val fuel first len ≤ s.length := by
  intro fuel
  induction fuel with
  | zero =>
    intro first len hlen hbound hlo hhi
    have h0 : len = 0 := by omega
    subst h0
    simp only [upperBoundLoop]
    exact ⟨hlo, fun i hi h => hhi i hi (by omega), by omega⟩
  | succ fuel ih =>
    intro first len hlen hbound hlo hhi
    by_cases h0 : len = 0
    · subst h0
      simp only [upperBoundLoop, if_true]
      exact ⟨hlo, fun i hi h => hhi i hi (by omega), by omega⟩
    · have hhalf : len / 2 < len := Nat.div_lt_self (by omega) (by omega)
      have hmid : first + len / 2 < s.length := by omega
      simp only [upperBoundLoop, h0, if_false, List.getElem?_eq_getElem hmid]
      by_cases hlt : val.lt s[first + len / 2] = true
      · simp only [hlt, if_true]
        have hlt' : val.due < (s[first + len / 2]).due := by
          simpa [Scheduled.lt] using hlt
        refine ih first (len / 2) (by omega) (by omega) hlo ?_
        intro i hi hge
        exact lt_of_lt_of_le hlt' (sortedByDue_getElem_le hs hge hi)
      · simp only [hlt, if_false]
        have hge' : (s[first + len / 2]).due ≤ val.due := by
          simpa [Scheduled.lt] using hlt
        refine ih (first + len / 2 + 1) (len - len / 2 - 1) (by omega) (by omega) ?_ ?_
        · intro i hi hilt
          exact le_trans (sortedByDue_getElem_le hs (by omega) hmid) hge'
        · intro i hi hige
          exact hhi i hi (by omega)

/-- A position that separates the due times at most `d` from those greater than `d`
cuts the store into the two filters. -/
theorem take_drop_eq_filter (s : Schedule T) (r : Nat) (d : TimePoint)
    (hlo : ∀ i (hi : i < s.length), i < r → (s[i]).due ≤ d)
    (hhi : ∀ i (hi : i < s.length), r ≤ i → d < (s[i]).due) :
    s.take r = s.filter (fun e => decide (e.due ≤ d)) ∧
    s.drop r = s.filter (fun e => decide (d < e.due)) := by
  have htake : ∀ a ∈ s.take r, a.due ≤ d := by
    intro a ha
    obtain ⟨i, hi, rfl⟩ := List.mem_take_iff_getElem.mp ha
    exact hlo i (by omega) (by omega)
  have hdrop : ∀ a ∈ s.drop r, d < a.due := by
    intro a ha
    obtain ⟨i, hi, rfl⟩ := List.mem_drop_iff_getElem.mp ha
    exact hhi (r + i) (by omega) (by omega)
  constructor
  · conv_rhs => rw [← List.take_append_drop r s, List.filter_append]
    have h1 : (s.take r).filter (fun e => decide (e.due ≤ d)) = s.take r :=
      List.filter_eq_self.mpr (fun a ha => by simpa using htake a ha)
    have h2 : (s.drop r).filter (fun e => decide (e.due ≤ d)) = [] :=
      List.filter_eq_nil_iff.mpr (fun a ha => by simpa using hdrop a ha)
    rw [h1, h2, List.append_nil]
  · conv_rhs => rw [← List.take_append_drop r s, List.filter_append]
    have h1 : (s.take r).filter (fun e => decide (d < e.due)) = [] :=
      List.filter_eq_nil_iff.mpr (fun a ha => by simpa using htake a ha)
    have h2 : (s.drop r).filter (fun e => decide (d < e.due)) = s.drop r :=
      List.filter_eq_self.mpr (fun a ha => by simpa using hdrop a ha)
    rw [h1, h2, List.nil_append]

/-- On a sorted store `std::upper_bound` returns the position that separates the due
times at most that of `val` from the greater ones. -/
theorem upper_bound_spec (s : Schedule T) (val : Scheduled T) (hs : SortedByDue s) :
    s.take (upper_bound s val) = s.filter (fun e => decide (e.due ≤ val.due)) ∧
    s.drop (upper_bound s val) = s.filter (fun e => decide (val.due < e.due)) := by
  obtain ⟨hlo, hhi, -⟩ := upperBoundLoop_spec s val hs s.length 0 s.length
    (le_refl _) (by omega) (fun i _ h => absurd h (Nat.not_lt_zero i))
    (fun i hi h => absurd hi (by omega))
  exact take_drop_eq_filter s (upper_bound s val) val.due hlo hhi

/-- On a sorted store `Push` splits the store by due time around the new entry. -/
theorem Push_eq_filter (value : T) (due : TimePoint) (s : Schedule T)
    (hs : SortedByDue s) :
    Push value due s =
      s.filter (fun e => decide (e.due ≤ due)) ++
        (⟨value, due⟩ : Scheduled T) :: s.filter (fun e => decide (due < e.due)) := by
  obtain ⟨h1, h2⟩ := upper_bound_spec s ⟨value, due⟩ hs
  simp only [Push, InsertPreservingOrder, dequeInsert, h1, h2]

/-- The two filters of a sorted store by a due time put the store together again. -/
theorem filter_le_append_filter_gt (due : TimePoint) (s : Schedule T)
    (hs : SortedByDue s) :
    s.filter (fun e => decide (e.due ≤ due)) ++ s.filter (fun e => decide (due < e.due))
      = s := by
  cases s with
  | nil => rfl
  | cons a t =>
    obtain ⟨h1, h2⟩ := upper_bound_spec (a :: t) ⟨a.value, due⟩ hs
    simp only at h1 h2
    rw [← h1, ← h2, List.take_append_drop]

theorem Push_sorted (value : T) (due : TimePoint) (s : Schedule T) (hs : SortedByDue s) :
    SortedByDue (Push value due s) := by
  rw [Push_eq_filter value due s hs]
  unfold SortedByDue at hs ⊢
  rw [List.pairwise_append]
  refine ⟨hs.sublist (List.filter_sublist _), ?_, ?_⟩
  · rw [List.pairwise_cons]
    refine ⟨?_, hs.sublist (List.filter_sublist _)⟩
    intro a ha
    have := (List.mem_filter.mp ha).2
    simp only [decide_eq_true_eq] at this
    exact le_of_lt this
  · intro a ha b hb
    have ha' := (List.mem_filter.mp ha).2
    simp only [decide_eq_true_eq] at ha'
    rcases List.mem_cons.mp hb with rfl | hb
    · exact ha'
    · have hb' := (List.mem_filter.mp hb).2
      simp only [decide_eq_true_eq] at hb'
      exact le_trans ha' (le_of_lt hb')

theorem DoPop_eq (out : T) (k : Nat) (s : Schedule T) (hk : k < s.length) :
    DoPop out k s = some ((s[k]).value, s.eraseIdx k) := by
  have hne : s.isEmpty = false := by
    cases s with
    | nil => simp at hk
    | cons a t => rfl
  simp [DoPop, hne, List.getElem?_eq_getElem hk]

theorem PopIfDue_cons_due (out : T) (time : TimePoint) (e : Scheduled T)
    (rest : Schedule T) (h : e.due ≤ time) :
    PopIfDue out time (e :: rest) = some (true, e.value, rest) := by
  simp [PopIfDue, HasDue, h, DoPop]

theorem PopIfDue_cons_not_due (out : T) (time : TimePoint) (e : Scheduled T)
    (rest : Schedule T) (h : time < e.due) :
    PopIfDue out time (e :: rest) = some (false, out, e :: rest) := by
  simp [PopIfDue, HasDue, not_le.mpr h]

theorem PopIfDue_nil (out : T) (time : TimePoint) :
    PopIfDue out time ([] : Schedule T) = some (false, out, []) := by
  simp [PopIfDue, HasDue]

theorem find_if_le_length (pred : T → Bool) (s : Schedule T) :
    find_if pred s ≤ s.length := by
  induction s with
  | nil => simp [find_if]
  | cons e rest ih =>
    simp only [find_if, List.length_cons]
    split <;> omega

theorem find_if_eq_length_iff (pred : T → Bool) (s : Schedule T) :
    find_if pred s = s.length ↔ ∀ x ∈ s, pred x.value = false := by
  induction s with
  | nil => simp [find_if]
  | cons e rest ih =>
    simp only [find_if, List.length_cons, List.mem_cons, forall_eq_or_imp]
    by_cases he : pred e.value = true
    · simp [he]
    · simp only [Bool.not_eq_true] at he
      simp [he, ih]

theorem find_if_append (pred : T → Bool) (pre : Schedule T) (e : Scheduled T)
    (post : Schedule T) (hpre : ∀ x ∈ pre, pred x.value = false)
    (he : pred e.value = true) :
    find_if pred (pre ++ e :: post) = pre.length := by
  induction pre with
  | nil => simp [find_if, he]
  | cons a t ih =>
    have ha : pred a.value = false := hpre a (List.mem_cons_self _ _)
    have ih' := ih (fun x hx => hpre x (List.mem_cons_of_mem _ hx))
    simp [find_if, ha, ih']

/-- When some value satisfies the predicate, `PopIf` removes the first such entry. -/
theorem PopIf_found (out : T) (pred : T → Bool) (pre : Schedule T) (e : Scheduled T)
    (post : Schedule T) (hpre : ∀ x ∈ pre, pred x.value = false)
    (he : pred e.value = true) :
    PopIf out pred (pre ++ e :: post) = some (true, e.value, pre ++ post) := by
  have hf := find_if_append pred pre e post hpre he
  have hlen : pre.length < (pre ++ e :: post).length := by simp
  simp only [PopIf, hf]
  rw [DoPop_eq out pre.length (pre ++ e :: post) hlen]
  have hne : pre.length ≠ (pre ++ e :: post).length := by simp
  have hget : (pre ++ e :: post)[pre.length] = e := by
    rw [List.getElem_append_right (le_refl _)]
    simp
  simp [hne, hget, List.eraseIdx_append_of_length_le]

/-- When no value satisfies the predicate, `PopIf` changes nothing. -/
theorem PopIf_not_found (out : T) (pred : T → Bool) (s : Schedule T)
    (h : ∀ x ∈ s, pred x.value = false) :
    PopIf out pred s = some (false, out, s) := by
  have hf := (find_if_eq_length_iff pred s).mpr h
  simp [PopIf, hf]

/-- A store with a value that satisfies the predicate splits at the first such entry. -/
theorem exists_first_split (pred : T → Bool) (s : Schedule T)
    (h : ∃ x ∈ s, pred x.value = true) :
    ∃ pre e post, s = pre ++ e :: post ∧ (∀ x ∈ pre, pred x.value = false) ∧
      pred e.value = true := by
  induction s with
  | nil => simp at h
  | cons a t ih =>
    by_cases ha : pred a.value = true
    · exact ⟨[], a, t, rfl, by simp, ha⟩
    · have ht : ∃ x ∈ t, pred x.value = true := by
        obtain ⟨x, hx, hp⟩ := h
        rcases List.mem_cons.mp hx with rfl | hx
        · exact absurd hp ha
        · exact ⟨x, hx, hp⟩
      obtain ⟨pre, e, post, rfl, hpre, he⟩ := ih ht
      refine ⟨a :: pre, e, post, rfl, ?_, he⟩
      intro x hx
      rcases List.mem_cons.mp hx with rfl | hx
      · simpa using ha
      · exact hpre x hx

theorem PopIfDue_total (out : T) (time : TimePoint) (s : Schedule T) :
    ∃ flag out' s', PopIfDue out time s = some (flag, out', s') ∧
      (flag = true ↔ ∃ e rest, s = e :: rest ∧ e.due ≤ time) ∧
      (flag = true → ∃ e rest, s = e :: rest ∧ out' = e.value ∧ s' = rest) ∧
      (flag = false → out' = out ∧ s' = s) := by
  cases s with
  | nil => exact ⟨false, out, [], PopIfDue_nil out time, by simp, by simp, by simp⟩
  | cons e rest =>
    by_cases h : e.due ≤ time
    · exact ⟨true, e.value, rest, PopIfDue_cons_due out time e rest h,
        by simpa using h, fun _ => ⟨e, rest, rfl, rfl, rfl⟩, by simp⟩
    · exact ⟨false, out, e :: rest, PopIfDue_cons_not_due out time e rest (not_le.mp h),
        by simpa using h, by simp, by simp⟩

theorem PopIf_total (out : T) (pred : T → Bool) (s : Schedule T) :
    ∃ flag out' s', PopIf out pred s = some (flag, out', s') ∧
      (flag = true ↔ ∃ x ∈ s, pred x.value = true) ∧
      (flag = true → ∃ pre e post, s = pre ++ e :: post ∧
        (∀ x ∈ pre, pred x.value = false) ∧ pred e.value = true ∧
        out' = e.value ∧ s' = pre ++ post) ∧
      (flag = false → out' = out ∧ s' = s) := by
  by_cases h : ∃ x ∈ s, pred x.value = true
  · obtain ⟨pre, e, post, rfl, hpre, he⟩ := exists_first_split pred s h
    exact ⟨true, e.value, pre ++ post, PopIf_found out pred pre e post hpre he,
      by simpa using h, fun _ => ⟨pre, e, post, rfl, hpre, he, rfl, rfl⟩, by simp⟩
  · have h' : ∀ x ∈ s, pred x.value = false := by
      intro x hx
      by_contra hp
      exact h ⟨x, hx, by simpa using hp⟩
    exact ⟨false, out, s, PopIf_not_found out pred s h', by simpa using h', by simp,
      by simp⟩

theorem PopIfDue_sorted (out : T) (time : TimePoint) (s : Schedule T)
    (hs : SortedByDue s) :
    ∃ flag out' s', PopIfDue out time s = some (flag, out', s') ∧ SortedByDue s' := by
  obtain ⟨flag, out', s', h, -, ht, hf⟩ := PopIfDue_total out time s
  refine ⟨flag, out', s', h, ?_⟩
  cases flag with
  | true =>
    obtain ⟨e, rest, rfl, -, rfl⟩ := ht rfl
    exact (List.pairwise_cons.mp hs).2
  | false =>
    rw [(hf rfl).2]
    exact hs

theorem PopIf_sorted (out : T) (pred : T → Bool) (s : Schedule T) (hs : SortedByDue s) :
    ∃ flag out' s', PopIf out pred s = some (flag, out', s') ∧ SortedByDue s' := by
  obtain ⟨flag, out', s', h, -, ht, hf⟩ := PopIf_total out pred s
  refine ⟨flag, out', s', h, ?_⟩
  cases flag with
  | true =>
    obtain ⟨pre, e, post, rfl, -, -, -, rfl⟩ := ht rfl
    exact List.Pairwise.sublist
      (List.Sublist.append (List.Sublist.refl pre) (List.sublist_cons_self e post)) hs
  | false =>
    rw [(hf rfl).2]
    exact hs

theorem runStoreOps_sorted (ops : List (StoreOp T)) :
    ∀ s : Schedule T, SortedByDue s →
      ∃ s', runStoreOps ops s = some s' ∧ SortedByDue s' := by
  induction ops with
  | nil => exact fun s hs => ⟨s, rfl, hs⟩
  | cons op ops ih =>
    intro s hs
    have hstep : ∃ s1, op.apply s = some s1 ∧ SortedByDue s1 := by
      cases op with
      | push value due => exact ⟨_, rfl, Push_sorted value due s hs⟩
      | popIfDue out time =>
        obtain ⟨flag, out', s', h, hs'⟩ := PopIfDue_sorted out time s hs
        exact ⟨s', by simp [StoreOp.apply, h], hs'⟩
      | popIf out pred =>
        obtain ⟨flag, out', s', h, hs'⟩ := PopIf_sorted out pred s hs
        exact ⟨s', by simp [StoreOp.apply, h], hs'⟩
    obtain ⟨s1, h1, hs1⟩ := hstep
    obtain ⟨s2, h2, hs2⟩ := ih s1 hs1
    exact ⟨s2, by simp [runStoreOps, h1, h2], hs2⟩

/-- Two stores sorted by due time that hold, for every due time, the same entries in
the same order are equal. -/
theorem sortedByDue_ext :
    ∀ (l₁ l₂ : Schedule T), SortedByDue l₁ → SortedByDue l₂ →
      (∀ d : TimePoint, l₁.filter (fun e => decide (e.due = d)) =
        l₂.filter (fun e => decide (e.due = d))) → l₁ = l₂
  | [], [], _, _, _ => rfl
  | [], b :: t₂, _, _, hf => by
    have := hf b.due
    simp at this
  | a :: t₁, [], _, _, hf => by
    have := hf a.due
    simp at this
  | a :: t₁, b :: t₂, h₁, h₂, hf => by
    have hab : a.due ≤ b.due := by
      have hb : b ∈ (a :: t₁).filter (fun e => decide (e.due = b.due)) := by
        rw [hf b.due]; simp
      rcases List.mem_cons.mp (List.mem_filter.mp hb).1 with rfl | hb'
      · exact le_refl _
      · exact (List.pairwise_cons.mp h₁).1 b hb'
    have hba : b.due ≤ a.due := by
      have ha : a ∈ (b :: t₂).filter (fun e => decide (e.due = a.due)) := by
        rw [← hf a.due]; simp
      rcases List.mem_cons.mp (List.mem_filter.mp ha).1 with rfl | ha'
      · exact le_refl _
      · exact (List.pairwise_cons.mp h₂).1 a ha'
    have hd : a.due = b.due := le_antisymm hab hba
    have h0 := hf a.due
    simp only [List.filter_cons, decide_True, if_true, hd] at h0
    obtain ⟨rfl, -⟩ := List.cons.inj h0
    have htail : t₁ = t₂ := by
      refine sortedByDue_ext t₁ t₂ (List.pairwise_cons.mp h₁).2
        (List.pairwise_cons.mp h₂).2 ?_
      intro d
      have hd' := hf d
      by_cases hda : a.due = d
      · simp only [List.filter_cons, hda, decide_True, if_true] at hd'
        exact (List.cons.inj hd').2
      · simpa only [List.filter_cons, hda, decide_False, Bool.false_eq_true, if_false]
          using hd'
    rw [htail]

/-- What `Push` does to the entries of one due time: the new entry goes behind them
when it has that due time, and they are untouched otherwise. -/
theorem filter_due_Push (value : T) (due d : TimePoint) (s : Schedule T)
    (hs : SortedByDue s) :
    (Push value due s).filter (fun e => decide (e.due = d)) =
      s.filter (fun e => decide (e.due = d)) ++
        (if due = d then [(⟨value, due⟩ : Scheduled T)] else []) := by
  rw [Push_eq_filter value due s hs]
  conv_rhs => rw [← filter_le_append_filter_gt due s hs]
  simp only [List.filter_append, List.filter_cons, List.filter_filter]
  by_cases hd : due = d
  · subst hd
    have hnil : s.filter (fun e => decide (e.due = due) && decide (due < e.due)) = [] := by
      rw [List.filter_eq_nil_iff]
      intro a _
      simp only [Bool.and_eq_true, decide_eq_true_eq, not_and, not_lt]
      intro h
      exact le_of_eq h
    simp [hnil]
  · simp [hd]

theorem pushEach_sorted (pushes : List (Scheduled T)) :
    ∀ s : Schedule T, SortedByDue s → SortedByDue (pushEach pushes s) := by
  induction pushes with
  | nil => exact fun s hs => hs
  | cons p ps ih =>
    intro s hs
    exact ih (Push p.value p.due s) (Push_sorted p.value p.due s hs)

theorem filter_due_pushEach (d : TimePoint) (pushes : List (Scheduled T)) :
    ∀ s : Schedule T, SortedByDue s →
      (pushEach pushes s).filter (fun e => decide (e.due = d)) =
        s.filter (fun e => decide (e.due = d)) ++
          pushes.filter (fun e => decide (e.due = d)) := by
  induction pushes with
  | nil => intro s _; simp [pushEach]
  | cons p ps ih =>
    intro s hs
    have h := ih (Push p.value p.due s) (Push_sorted p.value p.due s hs)
    simp only [pushEach, List.foldl_cons] at h ⊢
    rw [h, filter_due_Push p.value p.due d s hs]
    by_cases hd : p.due = d
    · subst hd
      simp [List.filter_cons]
    · simp [hd, List.filter_cons]

theorem stableSortByDue_sorted (l : List (Scheduled T)) :
    SortedByDue (stableSortByDue l) := by
  have h := @List.sorted_mergeSort _ (fun (a b : Scheduled T) => decide (a.due ≤ b.due))
    (fun a b c hab hbc => by
      simp only [decide_eq_true_eq] at hab hbc ⊢
      exact le_trans hab hbc)
    (fun a b => by
      simp only [Bool.or_eq_true, decide_eq_true_eq]
      exact le_total a.due b.due) l
  unfold SortedByDue stableSortByDue
  exact h.imp (fun hab => by simpa using hab)

theorem stableSortByDue_perm (l : List (Scheduled T)) :
    (stableSortByDue l).Perm l :=
  List.mergeSort_perm l _

/-- Stability: the entries of one due time keep their order under the sort. -/
theorem filter_due_stableSortByDue (d : TimePoint) (l : List (Scheduled T)) :
    (stableSortByDue l).filter (fun e => decide (e.due = d)) =
      l.filter (fun e => decide (e.due = d)) := by
  have hsub : List.Sublist (l.filter (fun e => decide (e.due = d)))
      (stableSortByDue l) := by
    unfold stableSortByDue
    refine List.sublist_mergeSort ?_ ?_ ?_ (List.filter_sublist l)
    · intro a b c hab hbc
      simp only [decide_eq_true_eq] at hab hbc ⊢
      exact le_trans hab hbc
    · intro a b
      simp only [Bool.or_eq_true, decide_eq_true_eq]
      exact le_total a.due b.due
    rw [List.pairwise_iff_forall_sublist]
    intro a b hab
    have ha : a ∈ l.filter (fun e => decide (e.due = d)) := hab.subset (by simp)
    have hb : b ∈ l.filter (fun e => decide (e.due = d)) := hab.subset (by simp)
    have ha' := (List.mem_filter.mp ha).2
    have hb' := (List.mem_filter.mp hb).2
    simp only [decide_eq_true_eq] at ha' hb' ⊢
    exact le_of_eq (ha'.trans hb'.symm)
  have hsub' := hsub.filter (fun e => decide (e.due = d))
  rw [List.filter_filter] at hsub'
  simp only [Bool.and_self] at hsub'
  have hlen : ((stableSortByDue l).filter (fun e => decide (e.due = d))).length =
      (l.filter (fun e => decide (e.due = d))).length :=
    ((stableSortByDue_perm l).filter _).length_eq
  exact (hsub'.eq_of_length hlen.symm).symm

/-- Pushing a sequence into the empty store sorts it stably by due time. -/
theorem pushEach_nil_eq_stableSort (pushes : List (Scheduled T)) :
    pushEach pushes [] = stableSortByDue pushes := by
  refine sortedByDue_ext _ _ (pushEach_sorted pushes [] List.Pairwise.nil)
    (stableSortByDue_sorted pushes) ?_
  intro d
  rw [filter_due_pushEach d pushes [] List.Pairwise.nil, filter_due_stableSortByDue]
  simp

/-- Draining a store with times at or after every due time pops every entry in stored
order, and every call after that returns false and changes nothing. -/
theorem popIfDueEach_drain (extra : List TimePoint) :
    ∀ (s : Schedule T) (times : List TimePoint) (out : T),
      times.length = s.length → (∀ t ∈ times, ∀ e ∈ s, e.due ≤ t) →
      popIfDueEach (times ++ extra) out s =
        some (s.map (fun e => (true, e.value)) ++
            extra.map (fun _ => (false, (s.map (fun e => e.value)).getLastD out)),
          (s.map (fun e => e.value)).getLastD out, [])
  | [], [], out, _, _ => by
    induction extra with
    | nil => simp [popIfDueEach]
    | cons t ts ih =>
      simp only [List.nil_append, List.map_nil, List.getLastD_nil] at ih ⊢
      simp [popIfDueEach, PopIfDue_nil, ih]
  | [], _ :: _, _, hlen, _ => by simp at hlen
  | _ :: _, [], _, hlen, _ => by simp at hlen
  | e :: rest, t :: ts, out, hlen, hdue => by
    have he : e.due ≤ t := hdue t (List.mem_cons_self _ _) e (List.mem_cons_self _ _)
    have ih := popIfDueEach_drain extra rest ts e.value (by simpa using hlen)
      (fun t' ht' e' he' => hdue t' (List.mem_cons_of_mem _ ht') e'
        (List.mem_cons_of_mem _ he'))
    rw [List.cons_append, popIfDueEach, PopIfDue_cons_due out t e rest he]
    simp only []
    rw [ih]
    simp only [List.map_cons, List.cons_append, List.getLastD_cons]

end StoreLemmas

/-! ## Lemmas on the queue -/

section QueueLemmas

variable {T P : Type}

/-- On any store `Push` adds the new entry and keeps all the others. -/
theorem Push_perm (value : T) (due : TimePoint) (s : Schedule T) :
    (Push value due s).Perm ((⟨value, due⟩ : Scheduled T) :: s) := by
  simp only [Push, InsertPreservingOrder, dequeInsert]
  refine List.perm_middle.trans ?_
  rw [List.take_append_drop]

theorem sum_due_Push (value : T) (due : TimePoint) (s : Schedule T) :
    ((Push value due s).map (fun e => e.due)).sum = due + (s.map (fun e => e.due)).sum := by
  rw [((Push_perm value due s).map (fun e => e.due)).sum_eq]
  simp

theorem wrapInt64_of_isInt64 (x : Int) (h : IsInt64 x) : wrapInt64 x = x := by
  unfold IsInt64 at h
  unfold wrapInt64
  omega

theorem isInt64_wrapInt64 (x : Int) : IsInt64 (wrapInt64 x) := by
  unfold IsInt64 wrapInt64
  omega

theorem timePointPlus_zero (now : TimePoint) (h : IsInt64 now) :
    timePointPlus now 0 = now := by
  unfold timePointPlus
  rw [add_zero]
  exact wrapInt64_of_isInt64 now h

theorem DoEnqueue_eq (operation : Operation P) (when_ : TimePoint) (q : AsyncQueue P) :
    DoEnqueue operation when_ q =
      (q.current_id_,
        { schedule_ := Push ⟨operation, q.current_id_⟩ when_ q.schedule_,
          shutting_down_ := q.shutting_down_,
          current_id_ := (q.current_id_ + 1) % 2 ^ 32 }) := by
  rfl

theorem popIfDueEach_front :
    ∀ (pre : Schedule T) (post : Schedule T) (times : List TimePoint) (out : T),
      times.length = pre.length → (∀ t ∈ times, ∀ e ∈ pre, e.due ≤ t) →
      popIfDueEach times out (pre ++ post) =
        some (pre.map (fun e => (true, e.value)),
          (pre.map (fun e => e.value)).getLastD out, post)
  | [], post, [], out, _, _ => by simp [popIfDueEach]
  | [], _, _ :: _, _, hlen, _ => by simp at hlen
  | _ :: _, _, [], _, hlen, _ => by simp at hlen
  | e :: rest, post, t :: ts, out, hlen, hdue => by
    have he : e.due ≤ t := hdue t (List.mem_cons_self _ _) e (List.mem_cons_self _ _)
    have ih := popIfDueEach_front rest post ts e.value (by simpa using hlen)
      (fun t' ht' e' he' => hdue t' (List.mem_cons_of_mem _ ht') e'
        (List.mem_cons_of_mem _ he'))
    rw [List.cons_append, popIfDueEach, PopIfDue_cons_due out t (e) (rest ++ post) he]
    simp only []
    rw [ih]
    simp only [List.map_cons, List.getLastD_cons]

theorem ImmediateFirst.filter_le_zero {s imm del : Schedule T}
    (h : ImmediateFirst s imm del) :
    s.filter (fun e => decide (e.due ≤ 0)) = imm ∧
    s.filter (fun e => decide (0 < e.due)) = del := by
  rw [h.split, List.filter_append, List.filter_append]
  have h1 : imm.filter (fun e => decide (e.due ≤ 0)) = imm :=
    List.filter_eq_self.mpr (fun a ha => by simp [h.imm_due a ha])
  have h2 : del.filter (fun e => decide (e.due ≤ 0)) = [] :=
    List.filter_eq_nil_iff.mpr (fun a ha => by simpa using h.del_due a ha)
  have h3 : imm.filter (fun e => decide (0 < e.due)) = [] :=
    List.filter_eq_nil_iff.mpr (fun a ha => by simp [h.imm_due a ha])
  have h4 : del.filter (fun e => decide (0 < e.due)) = del :=
    List.filter_eq_self.mpr (fun a ha => by simpa using h.del_due a ha)
  rw [h1, h2, h3, h4]
  simp

theorem ImmediateFirst.push_immediate {s imm del : Schedule T}
    (h : ImmediateFirst s imm del) (value : T) :
    ImmediateFirst (Push value 0 s) (imm ++ [⟨value, 0⟩]) del := by
  obtain ⟨h1, h2⟩ := h.filter_le_zero
  refine ⟨?_, Push_sorted value 0 s h.sorted, ?_, h.del_due⟩
  · rw [Push_eq_filter value 0 s h.sorted, h1, h2]
    simp
  · intro e he
    rcases List.mem_append.mp he with he | he
    · exact h.imm_due e he
    · simp only [List.mem_singleton] at he
      rw [he]

theorem ImmediateFirst.push_delayed {s imm del : Schedule T}
    (h : ImmediateFirst s imm del) (value : T) (due : TimePoint) (hdue : 0 < due) :
    ∃ del', ImmediateFirst (Push value due s) imm del' ∧
      del'.Perm ((⟨value, due⟩ : Scheduled T) :: del) := by
  have hs := Push_eq_filter value due s h.sorted
  have himm : imm.filter (fun e => decide (e.due ≤ due)) = imm :=
    List.filter_eq_self.mpr (fun a ha => by
      simp only [decide_eq_true_eq, h.imm_due a ha]
      exact le_of_lt hdue)
  have himm' : imm.filter (fun e => decide (due < e.due)) = [] :=
    List.filter_eq_nil_iff.mpr (fun a ha => by
      simp only [decide_eq_true_eq, h.imm_due a ha, not_lt]
      exact le_of_lt hdue)
  have hdel : SortedByDue del := by
    have := h.sorted
    rw [h.split] at this
    exact (List.pairwise_append.mp this).2.1
  refine ⟨Push value due del, ⟨?_, Push_sorted value due s h.sorted, h.imm_due, ?_⟩,
    Push_perm value due del⟩
  · rw [hs, Push_eq_filter value due del hdel, h.split, List.filter_append,
      List.filter_append, himm, himm']
    simp
  · intro e he
    rcases List.mem_cons.mp ((Push_perm value due del).mem_iff.mp he) with rfl | he
    · exact hdue
    · exact h.del_due e he

/-- The store after a sequence of submissions, each delayed one due after the epoch,
starting from a store of the shape `ImmediateFirst`. -/
theorem submitEach_immediateFirst (this : Nat) (cs : List (Submission P)) :
    ∀ (q : AsyncQueue P) (imm del : Schedule (Entry P)),
      ImmediateFirst q.schedule_ imm del → delayedAfterEpoch cs →
      ∃ imm' del', ImmediateFirst (submitEach this cs q).schedule_ imm' del' ∧
        imm'.map (fun e => e.value.operation) =
          imm.map (fun e => e.value.operation) ++ immediateOps cs ∧
        (del'.map (fun e => e.value.operation)).Perm
          (del.map (fun e => e.value.operation) ++ delayedOps cs) := by
  induction cs with
  | nil =>
    intro q imm del h _
    exact ⟨imm, del, h, by simp [immediateOps], by simp [delayedOps]⟩
  | cons c cs ih =>
    intro q imm del h hcs
    cases c with
    | immediate operation =>
      have h1 : ImmediateFirst (Enqueue operation q).schedule_
          (imm ++ [⟨⟨operation, q.current_id_⟩, 0⟩]) del := by
        simp only [Enqueue, DoEnqueue_eq]
        exact h.push_immediate _
      obtain ⟨imm', del', h', hi, hd⟩ := ih (Enqueue operation q) _ _ h1 hcs
      refine ⟨imm', del', h', ?_, ?_⟩
      · rw [hi]; simp [immediateOps]
      · simpa [delayedOps] using hd
    | delayed now delay operation =>
      obtain ⟨hdue, hcs'⟩ := hcs
      obtain ⟨del1, h1, hp1⟩ := h.push_delayed ⟨operation, q.current_id_⟩ (timePointPlus now delay) hdue
      have h1' : ImmediateFirst
          (EnqueueAfterDelay this now delay operation q).2.schedule_ imm del1 := by
        simp only [EnqueueAfterDelay, DoEnqueue_eq]
        exact h1
      obtain ⟨imm', del', h', hi, hd⟩ :=
        ih (EnqueueAfterDelay this now delay operation q).2 _ _ h1' hcs'
      refine ⟨imm', del', h', ?_, ?_⟩
      · rw [hi]; simp [immediateOps]
      · refine hd.trans ?_
        have hp2 := (hp1.map (fun e => e.value.operation)).append_right (delayedOps cs)
        refine hp2.trans ?_
        simp only [List.map_cons, List.cons_append, delayedOps]
        exact List.perm_middle.symm

theorem TryCancel_eq (id : Id) (q : AsyncQueue P) :
    ∃ flag out' s', PopIf Entry.default (fun e : Entry P => e.id == id) q.schedule_ =
        some (flag, out', s') ∧
      TryCancel id q = some ((), { q with schedule_ := s' }) := by
  obtain ⟨flag, out', s', h, -⟩ :=
    PopIf_total Entry.default (fun e : Entry P => e.id == id) q.schedule_
  exact ⟨flag, out', s', h, by simp [TryCancel, h]⟩

/-- In a store with pairwise distinct ids, `TryCancel(id)` leaves the entries with
another id. -/
theorem TryCancel_eq_filter (id : Id) (q : AsyncQueue P)
    (hq : (q.schedule_.map (fun e => e.value.id)).Nodup) :
    TryCancel id q =
      some ((), { q with schedule_ := q.schedule_.filter (fun e => e.value.id != id) }) := by
  obtain ⟨flag, out', s', h, -, ht, hf⟩ :=
    PopIf_total Entry.default (fun e : Entry P => e.id == id) q.schedule_
  have hs' : s' = q.schedule_.filter (fun e => e.value.id != id) := by
    cases flag with
    | true =>
      obtain ⟨pre, e, post, hsplit, hpre, he, -, rfl⟩ := ht rfl
      rw [hsplit] at hq ⊢
      have heid : e.value.id = id := by simpa using he
      have hpost : ∀ x ∈ post, x.value.id ≠ id := by
        intro x hx hxid
        rw [List.map_append, List.map_cons] at hq
        have hnd := (List.nodup_cons.mp (List.nodup_append.mp hq).2.1).1
        exact hnd (List.mem_map.mpr ⟨x, hx, by rw [hxid, heid]⟩)
      rw [List.filter_append, List.filter_cons]
      have h1 : pre.filter (fun e => e.value.id != id) = pre :=
        List.filter_eq_self.mpr (fun a ha => by
          have := hpre a ha
          simpa using this)
      have h2 : post.filter (fun e => e.value.id != id) = post :=
        List.filter_eq_self.mpr (fun a ha => by simpa using hpost a ha)
      simp [h1, h2, heid]
    | false =>
      have hall : ∀ x ∈ q.schedule_, x.value.id ≠ id := by
        intro x hx hxid
        have hex : ∃ y ∈ q.schedule_, (fun e : Entry P => e.id == id) y.value = true :=
          ⟨x, hx, by simpa using hxid⟩
        have hiff := (PopIf_total Entry.default (fun e : Entry P => e.id == id) q.schedule_)
        obtain ⟨f2, o2, s2, h2, hiff2, -⟩ := hiff
        rw [h] at h2
        obtain ⟨rfl, -⟩ := Prod.mk.inj (Option.some.inj h2)
        exact absurd (hiff2.mpr hex) (by simp)
      rw [(hf rfl).2]
      exact (List.filter_eq_self.mpr (fun a ha => by simpa using hall a ha)).symm
  simp [TryCancel, h, hs']

theorem nodup_ids_filter (s : Schedule (Entry P)) (p : Scheduled (Entry P) → Bool)
    (hs : (s.map (fun e => e.value.id)).Nodup) :
    ((s.filter p).map (fun e => e.value.id)).Nodup :=
  hs.sublist ((List.filter_sublist s).map _)

theorem tryCancelEach_eq_filter (ids : List Id) :
    ∀ q : AsyncQueue P, (q.schedule_.map (fun e => e.value.id)).Nodup →
      tryCancelEach ids q =
        some { q with
          schedule_ := q.schedule_.filter (fun e => decide (e.value.id ∉ ids)) } := by
  induction ids with
  | nil => intro q _; simp [tryCancelEach]
  | cons id ids ih =>
    intro q hq
    simp only [tryCancelEach, TryCancel_eq_filter id q hq]
    rw [ih _ (nodup_ids_filter q.schedule_ _ hq)]
    simp only [List.filter_filter, Option.some.injEq, AsyncQueue.mk.injEq, and_true, true_and]
    apply List.filter_congr
    intro x _
    by_cases h1 : x.value.id = id <;> by_cases h2 : x.value.id ∈ ids <;> simp [h1, h2]

end QueueLemmas

/-! ## Lemmas on identifiers -/

section IdLemmas

variable {P : Type}

theorem Submission.apply_current_id (this : Nat) (c : Submission P) (q : AsyncQueue P) :
    (c.apply this q).current_id_ = (q.current_id_ + 1) % 2 ^ 32 := by
  cases c <;> rfl

theorem Submission.assignedId_eq (this : Nat) (c : Submission P) (q : AsyncQueue P) :
    c.assignedId this q = q.current_id_ := by
  cases c <;> rfl

/-- Every submission pushes one entry, and that entry carries the id the submission was
given. -/
theorem Submission.apply_schedule (this : Nat) (c : Submission P) (q : AsyncQueue P) :
    ∃ operation due, (c.apply this q).schedule_ =
      Push ⟨operation, c.assignedId this q⟩ due q.schedule_ := by
  cases c with
  | immediate operation => exact ⟨operation, 0, rfl⟩
  | delayed now delay operation => exact ⟨operation, timePointPlus now delay, rfl⟩

theorem submitEach_current_id (this : Nat) (cs : List (Submission P)) :
    ∀ (q : AsyncQueue P) (n : Nat), q.current_id_ = n % 2 ^ 32 →
      (submitEach this cs q).current_id_ = (n + cs.length) % 2 ^ 32 := by
  induction cs with
  | nil => intro q n h; simpa [submitEach] using h
  | cons c cs ih =>
    intro q n h
    have h1 : (c.apply this q).current_id_ = (n + 1) % 2 ^ 32 := by
      rw [Submission.apply_current_id, h]
      omega
    have := ih (c.apply this q) (n + 1) h1
    simp only [submitEach, List.foldl_cons, List.length_cons] at this ⊢
    rw [this]
    congr 1
    omega

theorem submitIds_getElem? (this : Nat) (cs : List (Submission P)) :
    ∀ (q : AsyncQueue P) (n : Nat), q.current_id_ = n % 2 ^ 32 →
      ∀ k, k < cs.length → (submitIds this cs q)[k]? = some ((n + k) % 2 ^ 32) := by
  induction cs with
  | nil => intro q n _ k hk; simp at hk
  | cons c cs ih =>
    intro q n h k hk
    cases k with
    | zero => simp [submitIds, Submission.assignedId_eq, h]
    | succ k =>
      have h1 : (c.apply this q).current_id_ = (n + 1) % 2 ^ 32 := by
        rw [Submission.apply_current_id, h]
        omega
      have := ih (c.apply this q) (n + 1) h1 k (by simpa using hk)
      simp only [submitIds, List.getElem?_cons_succ]
      rw [this]
      congr 2
      omega

theorem submitEach_append (this : Nat) (cs ds : List (Submission P)) (q : AsyncQueue P) :
    submitEach this (cs ++ ds) q = submitEach this ds (submitEach this cs q) := by
  simp [submitEach, List.foldl_append]

theorem submitIds_take (this : Nat) (cs : List (Submission P)) :
    ∀ (q : AsyncQueue P) (k : Nat) (hk : k < cs.length),
      (submitIds this cs q)[k]? =
        some ((cs[k]).assignedId this (submitEach this (cs.take k) q)) := by
  induction cs with
  | nil => intro q k hk; simp at hk
  | cons c cs ih =>
    intro q k hk
    cases k with
    | zero => simp [submitIds, submitEach]
    | succ k =>
      have := ih (c.apply this q) k (by simpa using hk)
      simpa [submitIds, submitEach] using this

end IdLemmas

/-! ## Lemmas on `PopBlocking` -/

section BlockingLemmas

variable {T : Type}

theorem runStoreOps_total (ops : List (StoreOp T)) :
    ∀ s : Schedule T, ∃ s', runStoreOps ops s = some s' := by
  induction ops with
  | nil => exact fun s => ⟨s, rfl⟩
  | cons op ops ih =>
    intro s
    have hstep : ∃ s1, op.apply s = some s1 := by
      cases op with
      | push value due => exact ⟨_, rfl⟩
      | popIfDue out time =>
        obtain ⟨flag, out', s', h, -⟩ := PopIfDue_total out time s
        exact ⟨s', by simp [StoreOp.apply, h]⟩
      | popIf out pred =>
        obtain ⟨flag, out', s', h, -⟩ := PopIf_total out pred s
        exact ⟨s', by simp [StoreOp.apply, h]⟩
    obtain ⟨s1, h1⟩ := hstep
    obtain ⟨s2, h2⟩ := ih s1
    exact ⟨s2, by simp [runStoreOps, h1, h2]⟩

theorem storeAfterWakes_sorted (events : List (Wake T)) :
    ∀ s s' : Schedule T, SortedByDue s → storeAfterWakes events s = some s' →
      SortedByDue s' := by
  induction events with
  | nil =>
    intro s s' hs h
    simp only [storeAfterWakes, Option.some.injEq] at h
    rw [← h]
    exact hs
  | cons w ws ih =>
    intro s s' hs h
    obtain ⟨s1, h1, hs1⟩ := runStoreOps_sorted w.ops s hs
    simp only [storeAfterWakes, h1] at h
    exact ih s1 s' hs1 h

theorem popFront_cons (out : T) (e : Scheduled T) (rest : Schedule T) :
    popFront out (e :: rest) = .returned e.value rest := by
  simp [popFront, DoPop]

theorem fromTop_nil (now : TimePoint) (out : T) :
    fromTop now out ([] : Schedule T) = .parked .nonEmptyWait [] := by
  simp [fromTop]

theorem fromTop_cons_due (now : TimePoint) (out : T) (e : Scheduled T)
    (rest : Schedule T) (h : e.due ≤ now) :
    fromTop now out (e :: rest) = .returned e.value rest := by
  simp [fromTop, HasDue, h, popFront_cons]

theorem fromTop_cons_not_due (now : TimePoint) (out : T) (e : Scheduled T)
    (rest : Schedule T) (h : now < e.due) :
    fromTop now out (e :: rest) = .parked (.dueWait e.due) (e :: rest) := by
  simp [fromTop, HasDue, not_le.mpr h]

/-- The body of the loop never fails; when it returns it hands out the front entry,
which is due at the clock reading, and when it blocks it leaves the store alone. -/
theorem fromTop_cases (now : TimePoint) (out : T) (s : Schedule T) :
    (∃ e rest, s = e :: rest ∧ e.due ≤ now ∧ fromTop now out s = .returned e.value rest) ∨
    (∃ place, fromTop now out s = .parked place s) := by
  cases s with
  | nil => exact Or.inr ⟨_, fromTop_nil now out⟩
  | cons e rest =>
    by_cases h : e.due ≤ now
    · exact Or.inl ⟨e, rest, rfl, h, fromTop_cons_due now out e rest h⟩
    · exact Or.inr ⟨_, fromTop_cons_not_due now out e rest (not_le.mp h)⟩

theorem afterWake_cases (place : Parked) (w : Wake T) (out : T) (s : Schedule T) :
    (∃ e rest, s = e :: rest ∧ e.due ≤ w.now ∧
      afterWake place w out s = .returned e.value rest) ∨
    (∃ place', afterWake place w out s = .parked place' s) := by
  cases place with
  | nonEmptyWait => exact fromTop_cases w.now out s
  | dueWait until_ =>
    cases s with
    | nil =>
      refine Or.inr ?_
      by_cases ht : w.timedOut = true
      · exact ⟨.nonEmptyWait, by simp [afterWake, HasDue, ht, fromTop_nil]⟩
      · exact ⟨.dueWait until_, by simp [afterWake, HasDue, ht]⟩
    | cons e rest =>
      by_cases h : e.due ≤ w.now
      · exact Or.inl ⟨e, rest, rfl, h, by simp [afterWake, HasDue, h, popFront_cons]⟩
      · refine Or.inr ?_
        by_cases ht : w.timedOut = true
        · exact ⟨.dueWait e.due, by
            simp [afterWake, HasDue, h, ht, fromTop_cons_not_due _ _ _ _ (not_le.mp h)]⟩
        · exact ⟨.dueWait until_, by simp [afterWake, HasDue, h, ht]⟩

theorem lastReading_cons (w : Wake T) (ws : List (Wake T)) (now : TimePoint) :
    lastReading (w :: ws) now = lastReading ws w.now := by
  simp only [lastReading, List.map_cons, List.getLastD_cons]

theorem PopBlockingLoop_ne_failed (events : List (Wake T)) :
    ∀ (place : Parked) (out : T) (s : Schedule T),
      PopBlockingLoop events place out s ≠ .failed := by
  induction events with
  | nil => intro place out s; simp [PopBlockingLoop]
  | cons w ws ih =>
    intro place out s
    obtain ⟨s1, h1⟩ := runStoreOps_total w.ops s
    rcases afterWake_cases place w out s1 with ⟨e, rest, -, -, h⟩ | ⟨place', h⟩
    · simp [PopBlockingLoop, h1, h]
    · simp only [PopBlockingLoop, h1, h]
      exact ih place' out s1

/-- A blocked `PopBlocking` that returns has used up some of the wake-ups; the store the
other threads left by then has the entry handed out at its front, and that entry is due
at the last clock reading. -/
theorem PopBlockingLoop_returned (events : List (Wake T)) :
    ∀ (place : Parked) (out : T) (s : Schedule T) (now : TimePoint) (out' : T)
      (s' : Schedule T), PopBlockingLoop events place out s = .returned out' s' →
      ∃ consumed rest e, events = consumed ++ rest ∧
        storeAfterWakes consumed s = some (e :: s') ∧ out' = e.value ∧
        e.due ≤ lastReading consumed now := by
  induction events with
  | nil => intro place out s now out' s' h; simp [PopBlockingLoop] at h
  | cons w ws ih =>
    intro place out s now out' s' h
    obtain ⟨s1, h1⟩ := runStoreOps_total w.ops s
    rcases afterWake_cases place w out s1 with ⟨e, rest, hs1, hdue, ha⟩ | ⟨place', ha⟩
    · simp only [PopBlockingLoop, h1, ha, Blocking.returned.injEq] at h
      obtain ⟨rfl, rfl⟩ := h
      refine ⟨[w], ws, e, rfl, ?_, rfl, ?_⟩
      · simp [storeAfterWakes, h1, hs1]
      · simpa [lastReading] using hdue
    · simp only [PopBlockingLoop, h1, ha] at h
      obtain ⟨consumed, rest, e, hsplit, hstore, hout, hdue⟩ :=
        ih place' out s1 w.now out' s' h
      refine ⟨w :: consumed, rest, e, by rw [hsplit]; rfl, ?_, hout, ?_⟩
      · simp [storeAfterWakes, h1, hstore]
      · rw [lastReading_cons]
        exact hdue

theorem PopBlocking_nil_due (now : TimePoint) (out : T) (e : Scheduled T)
    (rest : Schedule T) (h : e.due ≤ now) :
    PopBlocking [] now out (e :: rest) = .returned e.value rest := by
  simp [PopBlocking, fromTop_cons_due now out e rest h]

theorem PopBlocking_nil_not_due (now : TimePoint) (out : T) (e : Scheduled T)
    (rest : Schedule T) (h : now < e.due) :
    PopBlocking [] now out (e :: rest) = .parked (.dueWait e.due) (e :: rest) := by
  simp [PopBlocking, fromTop_cons_not_due now out e rest h, PopBlockingLoop]

theorem PopBlocking_nil_nil (now : TimePoint) (out : T) :
    PopBlocking [] now out ([] : Schedule T) = .parked .nonEmptyWait [] := by
  simp [PopBlocking, fromTop_nil, PopBlockingLoop]

end BlockingLemmas

/-! ## Lemmas on the worker -/

section WorkerLemmas

variable {P : Type}

theorem Sys.run_cons (st : Step P) (steps : List (Step P)) (σ : Sys P) :
    Sys.run (st :: steps) σ = Sys.run steps (σ.step st) := rfl

theorem Sys.workerStep_loopTest (σ : Sys P) (hw : σ.worker = .loopTest) :
    σ.workerStep =
      { σ with worker := if σ.queue.shutting_down_ then .exited else .popBlocking } := by
  unfold Sys.workerStep
  rw [hw]
  by_cases h : σ.queue.shutting_down_ = true <;> simp [h]

theorem Sys.workerStep_exited (σ : Sys P) (hw : σ.worker = .exited) :
    σ.workerStep = σ := by
  unfold Sys.workerStep
  rw [hw]

theorem Sys.workerStep_invoke (σ : Sys P) (entry : Entry (Nat × P)) (due : TimePoint)
    (hw : σ.worker = .invoke entry due) :
    σ.workerStep =
      { σ with
        worker := .loopTest
        executed := σ.executed ++ (toExecuted ⟨entry, due⟩).toList } := by
  unfold Sys.workerStep
  rw [hw]

/-- Inside `PopBlocking` a step of the worker either leaves the state as it is, or takes
the front entry, which is due, out of the store. -/
theorem Sys.workerStep_popBlocking (σ : Sys P) (hw : σ.worker = .popBlocking) :
    σ.workerStep = σ ∨
    ∃ e rest, σ.queue.schedule_ = e :: rest ∧ e.due ≤ σ.clock ∧
      σ.workerStep =
        { σ with
          queue := { σ.queue with schedule_ := rest }
          worker := .invoke e.value e.due
          popped := σ.popped ++ [e] } := by
  unfold Sys.workerStep
  rw [hw]
  cases hs : σ.queue.schedule_ with
  | nil =>
    left
    simp [PopBlocking_nil_nil]
  | cons e rest =>
    by_cases hdue : e.due ≤ σ.clock
    · right
      refine ⟨e, rest, rfl, hdue, ?_⟩
      simp [PopBlocking_nil_due _ _ e rest hdue]
    · left
      simp [PopBlocking_nil_not_due _ _ e rest (not_le.mp hdue)]

theorem Sys.workerStep_popBlocking_due (σ : Sys P) (hw : σ.worker = .popBlocking)
    (e : Scheduled (Entry (Nat × P))) (rest : Schedule (Entry (Nat × P)))
    (hs : σ.queue.schedule_ = e :: rest) (hdue : e.due ≤ σ.clock) :
    σ.workerStep =
      { σ with
        queue := { σ.queue with schedule_ := rest }
        worker := .invoke e.value e.due
        popped := σ.popped ++ [e] } := by
  unfold Sys.workerStep
  rw [hw]
  simp [hs, PopBlocking_nil_due _ _ e rest hdue]

theorem Sys.step_keeps_worker (st : Step P) (σ : Sys P) (hst : st ≠ .worker) :
    (σ.step st).worker = σ.worker ∧ (σ.step st).popped = σ.popped ∧
      (σ.step st).executed = σ.executed := by
  cases st with
  | worker => exact absurd rfl hst
  | tryCancel id =>
    obtain ⟨flag, out', s', -, h⟩ := TryCancel_eq id σ.queue
    simp [Sys.step, h]
  | _ => simp [Sys.step]

theorem Sys.step_keeps_flag (st : Step P) (σ : Sys P)
    (hflag : σ.queue.shutting_down_ = true) :
    (σ.step st).queue.shutting_down_ = true := by
  cases st with
  | enqueue operation => exact hflag
  | enqueueAfterDelay delay operation => exact hflag
  | tryCancel id =>
    obtain ⟨flag, out', s', -, h⟩ := TryCancel_eq id σ.queue
    simp [Sys.step, h, hflag]
  | clock now => exact hflag
  | setShuttingDown => rfl
  | unblockQueue noop => exact hflag
  | worker =>
    show σ.workerStep.queue.shutting_down_ = true
    cases hw : σ.worker with
    | loopTest => rw [Sys.workerStep_loopTest σ hw]; exact hflag
    | exited => rw [Sys.workerStep_exited σ hw]; exact hflag
    | invoke entry due => rw [Sys.workerStep_invoke σ entry due hw]; exact hflag
    | popBlocking =>
      rcases Sys.workerStep_popBlocking σ hw with h | ⟨e, rest, -, -, h⟩
      · rw [h]; exact hflag
      · rw [h]; exact hflag

theorem Sys.windsDown_congr (σ σ1 σ' : Sys P) (hw : σ1.worker = σ.worker)
    (hp : σ1.popped = σ.popped) (he : σ1.executed = σ.executed)
    (h : σ1.windsDown σ') : σ.windsDown σ' := by
  unfold Sys.windsDown at h ⊢
  rw [hw, hp, he] at h
  exact h

theorem Sys.windsDown_refl (σ : Sys P) : σ.windsDown σ := by
  unfold Sys.windsDown
  cases hw : σ.worker with
  | loopTest => exact ⟨Or.inl rfl, rfl, rfl⟩
  | exited => exact ⟨rfl, rfl, rfl⟩
  | invoke entry due => exact ⟨rfl, Or.inl ⟨rfl, rfl⟩⟩
  | popBlocking => exact Or.inl ⟨rfl, rfl, rfl⟩

/-- Once `shutting_down_` is set, every run winds down. -/
theorem Sys.windsDown_run (steps : List (Step P)) :
    ∀ σ : Sys P, σ.queue.shutting_down_ = true → σ.windsDown (Sys.run steps σ) := by
  induction steps with
  | nil => intro σ _; exact Sys.windsDown_refl σ
  | cons st steps ih =>
    intro σ hflag
    rw [Sys.run_cons]
    have ih1 := ih (σ.step st) (Sys.step_keeps_flag st σ hflag)
    by_cases hst : st = .worker
    · subst hst
      have hstep : σ.step .worker = σ.workerStep := rfl
      rw [hstep] at ih1 ⊢
      cases hw : σ.worker with
      | exited =>
        rw [Sys.workerStep_exited σ hw] at ih1 ⊢
        exact ih1
      | loopTest =>
        rw [Sys.workerStep_loopTest σ hw] at ih1 ⊢
        simp only [hflag, if_true] at ih1 ⊢
        unfold Sys.windsDown at ih1 ⊢
        simp only [hw] at ih1 ⊢
        exact ⟨Or.inr ih1.1, ih1.2.1, ih1.2.2⟩
      | invoke entry due =>
        rw [Sys.workerStep_invoke σ entry due hw] at ih1 ⊢
        unfold Sys.windsDown at ih1 ⊢
        simp only [hw] at ih1 ⊢
        exact ⟨ih1.2.1, Or.inr ⟨ih1.1, ih1.2.2⟩⟩
      | popBlocking =>
        rcases Sys.workerStep_popBlocking σ hw with h | ⟨e, rest, -, -, h⟩
        · rw [h] at ih1 ⊢
          exact ih1
        · rw [h] at ih1 ⊢
          unfold Sys.windsDown at ih1 ⊢
          simp only [hw] at ih1 ⊢
          exact Or.inr ⟨e, ih1.1, ih1.2⟩
    · obtain ⟨hw, hp, he⟩ := Sys.step_keeps_worker st σ hst
      exact Sys.windsDown_congr σ (σ.step st) _ hw hp he ih1

theorem Sys.run_keeps_flag (steps : List (Step P)) :
    ∀ σ : Sys P, σ.queue.shutting_down_ = true →
      (Sys.run steps σ).queue.shutting_down_ = true := by
  induction steps with
  | nil => exact fun σ h => h
  | cons st steps ih =>
    intro σ h
    rw [Sys.run_cons]
    exact ih _ (Sys.step_keeps_flag st σ h)

theorem toExecuted_toList_length (x : Scheduled (Entry (Nat × P))) :
    (toExecuted x).toList.length ≤ 1 := by
  cases h : toExecuted x <;> simp

theorem pairwise_insert_middle {α : Type} {R : α → α → Prop} (l₁ l₂ : List α) (n : α)
    (h : (l₁ ++ l₂).Pairwise R) (h₁ : ∀ a ∈ l₁, R a n) (h₂ : ∀ b ∈ l₂, R n b) :
    (l₁ ++ n :: l₂).Pairwise R := by
  rw [List.pairwise_append] at h ⊢
  refine ⟨h.1, List.pairwise_cons.mpr ⟨h₂, h.2.1⟩, ?_⟩
  intro a ha b hb
  rcases List.mem_cons.mp hb with rfl | hb
  · exact h₁ a ha
  · exact h.2.2 a ha b hb

theorem sortedByDue_of_storedInOrder (s : Schedule (Entry (Nat × P)))
    (h : s.Pairwise StoredInOrder) : SortedByDue s :=
  h.imp (fun hab => hab.1)

theorem toExecuted_inOrder (a b : Scheduled (Entry (Nat × P))) (h : StoredInOrder a b)
    (x : Executed P) (hx : x ∈ toExecuted a) (y : Executed P) (hy : y ∈ toExecuted b) :
    ExecutedInOrder x y := by
  obtain ⟨⟨opa, ida⟩, da⟩ := a
  obtain ⟨⟨opb, idb⟩, db⟩ := b
  cases opa with
  | none => simp [toExecuted] at hx
  | some pa =>
    cases opb with
    | none => simp [toExecuted] at hy
    | some pb =>
      simp only [toExecuted, Option.mem_def, Option.some.injEq] at hx hy
      subst hx
      subst hy
      exact ⟨h.1, fun hd => h.2 hd pa.1 pb.1 rfl rfl⟩

/-- A push that is due no earlier than every popped entry keeps the state ordered. -/
theorem Sys.Ordered.push {σ σ' : Sys P} (h : σ.Ordered) (value : Entry (Nat × P))
    (d : TimePoint) (hsched : σ'.queue.schedule_ = Push value d σ.queue.schedule_)
    (hsub : σ'.submitted = σ.submitted + 1) (hw : σ'.worker = σ.worker)
    (hp : σ'.popped = σ.popped) (he : σ'.executed = σ.executed)
    (hseq : ∀ i, value.operation.map Prod.fst = some i → i = σ.submitted)
    (hdue : ∀ e ∈ σ.popped, e.due ≤ d) : σ'.Ordered := by
  have hS : SortedByDue σ.queue.schedule_ :=
    sortedByDue_of_storedInOrder _ (List.pairwise_append.mp h.inOrder).2.1
  refine ⟨?_, ?_, ?_⟩
  · rw [hp, hsched, Push_eq_filter value d _ hS, ← List.append_assoc]
    refine pairwise_insert_middle _ _ _ ?_ ?_ ?_
    · rw [List.append_assoc, filter_le_append_filter_gt d _ hS]
      exact h.inOrder
    · intro a ha
      have hmem : a ∈ σ.popped ++ σ.queue.schedule_ := by
        rcases List.mem_append.mp ha with ha | ha
        · exact List.mem_append.mpr (Or.inl ha)
        · exact List.mem_append.mpr (Or.inr (List.mem_filter.mp ha).1)
      have hle : a.due ≤ d := by
        rcases List.mem_append.mp ha with ha | ha
        · exact hdue a ha
        · simpa using (List.mem_filter.mp ha).2
      refine ⟨hle, ?_⟩
      intro _ i j hi hj
      have hj' : j = σ.submitted := hseq j hj
      have := h.seqBound a hmem i hi
      omega
    · intro b hb
      have hlt : d < b.due := by simpa using (List.mem_filter.mp hb).2
      refine ⟨le_of_lt hlt, ?_⟩
      intro heq
      exact absurd heq (ne_of_lt hlt)
  · rw [hp, hsched, hsub]
    intro e he' i hi
    rcases List.mem_append.mp he' with he' | he'
    · have := h.seqBound e (List.mem_append.mpr (Or.inl he')) i hi
      omega
    · rcases List.mem_cons.mp ((Push_perm value d _).mem_iff.mp he') with rfl | he'
      · have := hseq i hi
        omega
      · have := h.seqBound e (List.mem_append.mpr (Or.inr he')) i hi
        omega
  · rw [hw, hp, he]
    exact h.invoked

/-- Taking entries out of the store keeps the state ordered. -/
theorem Sys.Ordered.shrink {σ σ' : Sys P} (h : σ.Ordered)
    (hsched : List.Sublist σ'.queue.schedule_ σ.queue.schedule_)
    (hsub : σ'.submitted = σ.submitted) (hw : σ'.worker = σ.worker)
    (hp : σ'.popped = σ.popped) (he : σ'.executed = σ.executed) : σ'.Ordered := by
  refine ⟨?_, ?_, ?_⟩
  · rw [hp]
    exact h.inOrder.sublist (List.Sublist.append (List.Sublist.refl _) hsched)
  · rw [hp, hsub]
    intro e he' i hi
    refine h.seqBound e ?_ i hi
    rcases List.mem_append.mp he' with he' | he'
    · exact List.mem_append.mpr (Or.inl he')
    · exact List.mem_append.mpr (Or.inr (hsched.subset he'))
  · rw [hw, hp, he]
    exact h.invoked

theorem Sys.Ordered.workerStep {σ : Sys P} (h : σ.Ordered) : σ.workerStep.Ordered := by
  cases hw : σ.worker with
  | exited => rw [Sys.workerStep_exited σ hw]; exact h
  | loopTest =>
    rw [Sys.workerStep_loopTest σ hw]
    have hi := h.invoked
    simp only [hw] at hi
    refine ⟨h.inOrder, h.seqBound, ?_⟩
    by_cases hf : σ.queue.shutting_down_ = true
    · simpa [hf] using hi
    · simpa [hf] using hi
  | invoke entry due =>
    rw [Sys.workerStep_invoke σ entry due hw]
    have hi := h.invoked
    simp only [hw] at hi
    obtain ⟨before, hpop, hexec⟩ := hi
    refine ⟨h.inOrder, h.seqBound, ?_⟩
    show σ.executed ++ (toExecuted ⟨entry, due⟩).toList = σ.popped.filterMap toExecuted
    rw [hpop, hexec, List.filterMap_append]
    congr 1
  | popBlocking =>
    rcases Sys.workerStep_popBlocking σ hw with hstay | ⟨e, rest, hs, -, hpop⟩
    · rw [hstay]; exact h
    · rw [hpop]
      have hi := h.invoked
      simp only [hw] at hi
      have hio := h.inOrder
      have hsb := h.seqBound
      rw [hs] at hio hsb
      refine ⟨?_, ?_, ?_⟩
      · show ((σ.popped ++ [e]) ++ rest).Pairwise StoredInOrder
        rw [List.append_assoc]
        exact hio
      · show ∀ x ∈ (σ.popped ++ [e]) ++ rest, ∀ i, seqOf x = some i → i < σ.submitted
        rw [List.append_assoc]
        exact hsb
      · exact ⟨σ.popped, rfl, hi⟩

/-- One step keeps the state ordered, when the entry it pushes, if any, is due no
earlier than every popped entry. -/
theorem Sys.Ordered.step {σ : Sys P} (h : σ.Ordered) (st : Step P)
    (hdue : ∀ d, st.pushedDue σ = some d → ∀ e ∈ σ.popped, e.due ≤ d) :
    (σ.step st).Ordered := by
  cases st with
  | enqueue operation =>
    refine h.push ⟨operation.map (fun p => (σ.submitted, p)), σ.queue.current_id_⟩ 0
      rfl rfl rfl rfl rfl ?_ (hdue 0 rfl)
    intro i hi
    cases operation with
    | none => simp at hi
    | some p => simpa using hi.symm
  | enqueueAfterDelay delay operation =>
    refine h.push ⟨operation.map (fun p => (σ.submitted, p)), σ.queue.current_id_⟩
      (timePointPlus σ.clock delay) rfl rfl rfl rfl rfl ?_ (hdue _ rfl)
    intro i hi
    cases operation with
    | none => simp at hi
    | some p => simpa using hi.symm
  | unblockQueue noop =>
    refine h.push ⟨some (σ.submitted, noop), 0⟩ 0 rfl rfl rfl rfl rfl ?_ (hdue 0 rfl)
    intro i hi
    simpa using hi.symm
  | tryCancel id =>
    obtain ⟨flag, out', s', hpop, hcancel⟩ := TryCancel_eq id σ.queue
    obtain ⟨flag2, out2, s2, hpop2, -, ht, hf⟩ :=
      PopIf_total (Entry.default : Entry (Nat × P)) (fun e => e.id == id) σ.queue.schedule_
    rw [hpop] at hpop2
    obtain ⟨rfl, rfl, rfl⟩ : flag = flag2 ∧ out' = out2 ∧ s' = s2 := by
      simpa using hpop2
    have hsub : List.Sublist s' σ.queue.schedule_ := by
      cases flag with
      | true =>
        obtain ⟨pre, e, post, hsplit, -, -, -, rfl⟩ := ht rfl
        rw [hsplit]
        exact List.Sublist.append (List.Sublist.refl pre) (List.sublist_cons_self e post)
      | false =>
        rw [(hf rfl).2]
    have hstep : σ.step (.tryCancel id) =
        { σ with queue := { σ.queue with schedule_ := s' } } := by
      simp [Sys.step, hcancel]
    rw [hstep]
    exact h.shrink hsub rfl rfl rfl rfl
  | clock now => exact h.shrink (List.Sublist.refl _) rfl rfl rfl rfl
  | setShuttingDown => exact h.shrink (List.Sublist.refl _) rfl rfl rfl rfl
  | worker => exact h.workerStep

theorem Sys.Ordered.run (steps : List (Step P)) :
    ∀ σ : Sys P, σ.Ordered → noPushBeforePopped steps σ → (Sys.run steps σ).Ordered := by
  induction steps with
  | nil => exact fun σ h _ => h
  | cons st steps ih =>
    intro σ h hno
    rw [Sys.run_cons]
    exact ih _ (h.step st hno.1) hno.2

theorem Sys.Ordered.fresh (now : TimePoint) : (Sys.fresh now : Sys P).Ordered :=
  ⟨List.Pairwise.nil, by intro e he; simp [Sys.fresh, AsyncQueue.fresh] at he, rfl⟩

/-- In an ordered state the invocations made are in order. -/
theorem Sys.Ordered.executed_inOrder {σ : Sys P} (h : σ.Ordered) :
    σ.executed.Pairwise ExecutedInOrder := by
  have hpopped : σ.popped.Pairwise StoredInOrder := (List.pairwise_append.mp h.inOrder).1
  have hi := h.invoked
  cases hw : σ.worker with
  | invoke entry due =>
    simp only [hw] at hi
    obtain ⟨before, hpop, hexec⟩ := hi
    rw [hexec]
    rw [hpop] at hpopped
    exact (List.pairwise_append.mp hpopped).1.filterMap toExecuted toExecuted_inOrder
  | loopTest =>
    simp only [hw] at hi
    rw [hi]
    exact hpopped.filterMap toExecuted toExecuted_inOrder
  | popBlocking =>
    simp only [hw] at hi
    rw [hi]
    exact hpopped.filterMap toExecuted toExecuted_inOrder
  | exited =>
    simp only [hw] at hi
    rw [hi]
    exact hpopped.filterMap toExecuted toExecuted_inOrder

theorem toExecuted_noOvertake (a b : Scheduled (Entry (Nat × P)))
    (h : StoredNoOvertake a b) (x : Executed P) (hx : x ∈ toExecuted a) (y : Executed P)
    (hy : y ∈ toExecuted b) : x.seq < y.seq ∨ x.due < y.due := by
  obtain ⟨⟨opa, ida⟩, da⟩ := a
  obtain ⟨⟨opb, idb⟩, db⟩ := b
  cases opa with
  | none => simp [toExecuted] at hx
  | some pa =>
    cases opb with
    | none => simp [toExecuted] at hy
    | some pb =>
      simp only [toExecuted, Option.mem_def, Option.some.injEq] at hx hy
      subst hx
      subst hy
      exact h pa.1 pb.1 rfl rfl

/-- Any push keeps the state stable. -/
theorem Sys.Stable.of_push {σ σ' : Sys P} (h : σ.Stable) (value : Entry (Nat × P))
    (d : TimePoint) (hsched : σ'.queue.schedule_ = Push value d σ.queue.schedule_)
    (hsub : σ'.submitted = σ.submitted + 1) (hw : σ'.worker = σ.worker)
    (hp : σ'.popped = σ.popped) (he : σ'.executed = σ.executed)
    (hseq : ∀ i, value.operation.map Prod.fst = some i → i = σ.submitted) :
    σ'.Stable := by
  refine ⟨?_, ?_, ?_, ?_⟩
  · rw [hsched]
    exact Push_sorted value d _ h.sorted
  · rw [hp, hsched, Push_eq_filter value d _ h.sorted, ← List.append_assoc]
    refine pairwise_insert_middle _ _ _ ?_ ?_ ?_
    · rw [List.append_assoc, filter_le_append_filter_gt d _ h.sorted]
      exact h.noOvertake
    · intro a ha i j hi hj
      have hmem : a ∈ σ.popped ++ σ.queue.schedule_ := by
        rcases List.mem_append.mp ha with ha | ha
        · exact List.mem_append.mpr (Or.inl ha)
        · exact List.mem_append.mpr (Or.inr (List.mem_filter.mp ha).1)
      have hj' : j = σ.submitted := hseq j hj
      have := h.seqBound a hmem i hi
      left
      omega
    · intro b hb i j _ _
      right
      simpa using (List.mem_filter.mp hb).2
  · rw [hp, hsched, hsub]
    intro e he' i hi
    rcases List.mem_append.mp he' with he' | he'
    · have := h.seqBound e (List.mem_append.mpr (Or.inl he')) i hi
      omega
    · rcases List.mem_cons.mp ((Push_perm value d _).mem_iff.mp he') with rfl | he'
      · have := hseq i hi
        omega
      · have := h.seqBound e (List.mem_append.mpr (Or.inr he')) i hi
        omega
  · rw [hw, hp, he]
    exact h.invoked

/-- Taking entries out of the store keeps the state stable. -/
theorem Sys.Stable.of_shrink {σ σ' : Sys P} (h : σ.Stable)
    (hsched : List.Sublist σ'.queue.schedule_ σ.queue.schedule_)
    (hsub : σ'.submitted = σ.submitted) (hw : σ'.worker = σ.worker)
    (hp : σ'.popped = σ.popped) (he : σ'.executed = σ.executed) : σ'.Stable := by
  refine ⟨List.Pairwise.sublist hsched h.sorted, ?_, ?_, ?_⟩
  · rw [hp]
    exact h.noOvertake.sublist (List.Sublist.append (List.Sublist.refl _) hsched)
  · rw [hp, hsub]
    intro e he' i hi
    refine h.seqBound e ?_ i hi
    rcases List.mem_append.mp he' with he' | he'
    · exact List.mem_append.mpr (Or.inl he')
    · exact List.mem_append.mpr (Or.inr (hsched.subset he'))
  · rw [hw, hp, he]
    exact h.invoked

theorem Sys.Stable.of_workerStep {σ : Sys P} (h : σ.Stable) : σ.workerStep.Stable := by
  cases hw : σ.worker with
  | exited => rw [Sys.workerStep_exited σ hw]; exact h
  | loopTest =>
    rw [Sys.workerStep_loopTest σ hw]
    have hi := h.invoked
    simp only [hw] at hi
    refine ⟨h.sorted, h.noOvertake, h.seqBound, ?_⟩
    by_cases hf : σ.queue.shutting_down_ = true
    · simpa [hf] using hi
    · simpa [hf] using hi
  | invoke entry due =>
    rw [Sys.workerStep_invoke σ entry due hw]
    have hi := h.invoked
    simp only [hw] at hi
    obtain ⟨before, hpop, hexec⟩ := hi
    refine ⟨h.sorted, h.noOvertake, h.seqBound, ?_⟩
    show σ.executed ++ (toExecuted ⟨entry, due⟩).toList = σ.popped.filterMap toExecuted
    rw [hpop, hexec, List.filterMap_append]
    congr 1
  | popBlocking =>
    rcases Sys.workerStep_popBlocking σ hw with hstay | ⟨e, rest, hs, -, hpop⟩
    · rw [hstay]; exact h
    · rw [hpop]
      have hi := h.invoked
      simp only [hw] at hi
      have hso := h.sorted
      have hio := h.noOvertake
      have hsb := h.seqBound
      rw [hs] at hso hio hsb
      refine ⟨(List.pairwise_cons.mp hso).2, ?_, ?_, ?_⟩
      · show ((σ.popped ++ [e]) ++ rest).Pairwise StoredNoOvertake
        rw [List.append_assoc]
        exact hio
      · show ∀ x ∈ (σ.popped ++ [e]) ++ rest, ∀ i, seqOf x = some i → i < σ.submitted
        rw [List.append_assoc]
        exact hsb
      · exact ⟨σ.popped, rfl, hi⟩

/-- Every step keeps the state stable. -/
theorem Sys.Stable.of_step {σ : Sys P} (h : σ.Stable) (st : Step P) :
    (σ.step st).Stable := by
  cases st with
  | enqueue operation =>
    refine h.of_push ⟨operation.map (fun p => (σ.submitted, p)), σ.queue.current_id_⟩ 0
      rfl rfl rfl rfl rfl ?_
    intro i hi
    cases operation with
    | none => simp at hi
    | some p => simpa using hi.symm
  | enqueueAfterDelay delay operation =>
    refine h.of_push ⟨operation.map (fun p => (σ.submitted, p)), σ.queue.current_id_⟩
      (timePointPlus σ.clock delay) rfl rfl rfl rfl rfl ?_
    intro i hi
    cases operation with
    | none => simp at hi
    | some p => simpa using hi.symm
  | unblockQueue noop =>
    refine h.of_push ⟨some (σ.submitted, noop), 0⟩ 0 rfl rfl rfl rfl rfl ?_
    intro i hi
    simpa using hi.symm
  | tryCancel id =>
    obtain ⟨flag, out', s', hpop, hcancel⟩ := TryCancel_eq id σ.queue
    obtain ⟨flag2, out2, s2, hpop2, -, ht, hf⟩ :=
      PopIf_total (Entry.default : Entry (Nat × P)) (fun e => e.id == id) σ.queue.schedule_
    rw [hpop] at hpop2
    obtain ⟨rfl, rfl, rfl⟩ : flag = flag2 ∧ out' = out2 ∧ s' = s2 := by
      simpa using hpop2
    have hsub : List.Sublist s' σ.queue.schedule_ := by
      cases flag with
      | true =>
        obtain ⟨pre, e, post, hsplit, -, -, -, rfl⟩ := ht rfl
        rw [hsplit]
        exact List.Sublist.append (List.Sublist.refl pre) (List.sublist_cons_self e post)
      | false =>
        rw [(hf rfl).2]
    have hstep : σ.step (.tryCancel id) =
        { σ with queue := { σ.queue with schedule_ := s' } } := by
      simp [Sys.step, hcancel]
    rw [hstep]
    exact h.of_shrink hsub rfl rfl rfl rfl
  | clock now => exact h.of_shrink (List.Sublist.refl _) rfl rfl rfl rfl
  | setShuttingDown => exact h.of_shrink (List.Sublist.refl _) rfl rfl rfl rfl
  | worker => exact h.of_workerStep

theorem Sys.Stable.of_run (steps : List (Step P)) :
    ∀ σ : Sys P, σ.Stable → (Sys.run steps σ).Stable := by
  induction steps with
  | nil => exact fun σ h => h
  | cons st steps ih =>
    intro σ h
    rw [Sys.run_cons]
    exact ih _ (h.of_step st)

theorem Sys.Stable.of_fresh (now : TimePoint) : (Sys.fresh now : Sys P).Stable :=
  ⟨List.Pairwise.nil, List.Pairwise.nil,
    by intro e he; simp [Sys.fresh, AsyncQueue.fresh] at he, rfl⟩

/-- In a stable state no invocation overtook an earlier one that was due no later. -/
theorem Sys.Stable.executed_noOvertake {σ : Sys P} (h : σ.Stable) :
    σ.executed.Pairwise (fun a b => a.seq < b.seq ∨ a.due < b.due) := by
  have hpopped : σ.popped.Pairwise StoredNoOvertake :=
    (List.pairwise_append.mp h.noOvertake).1
  have hi := h.invoked
  cases hw : σ.worker with
  | invoke entry due =>
    simp only [hw] at hi
    obtain ⟨before, hpop, hexec⟩ := hi
    rw [hexec]
    rw [hpop] at hpopped
    exact (List.pairwise_append.mp hpopped).1.filterMap toExecuted toExecuted_noOvertake
  | loopTest =>
    simp only [hw] at hi
    rw [hi]
    exact hpopped.filterMap toExecuted toExecuted_noOvertake
  | popBlocking =>
    simp only [hw] at hi
    rw [hi]
    exact hpopped.filterMap toExecuted toExecuted_noOvertake
  | exited =>
    simp only [hw] at hi
    rw [hi]
    exact hpopped.filterMap toExecuted toExecuted_noOvertake

end WorkerLemmas

/-! ## The ordered entry store -/

section StoreTheorems

variable {T : Type}

/-- C1. Sortedness is an invariant of the store: from a store sorted non-decreasingly
by due time, `Push`, `PopIfDue` and `PopIf` each return, and the store they leave is
sorted again, for every value, due time, time and predicate; so is the store after any
sequence of these calls, in particular after any sequence that starts from the empty
store. -/
theorem sortedness_invariant (s : Schedule T) (hs : SortedByDue s) :
    (∀ value due, SortedByDue (Push value due s)) ∧
    (∀ out time, ∃ flag out' s',
      PopIfDue out time s = some (flag, out', s') ∧ SortedByDue s') ∧
    (∀ out pred, ∃ flag out' s',
      PopIf out pred s = some (flag, out', s') ∧ SortedByDue s') ∧
    (∀ ops : List (StoreOp T), ∃ s', runStoreOps ops s = some s' ∧ SortedByDue s') ∧
    (∀ ops : List (StoreOp T), ∃ s', runStoreOps ops [] = some s' ∧ SortedByDue s') :=
  ⟨fun value due => Push_sorted value due s hs,
   fun out time => PopIfDue_sorted out time s hs,
   fun out pred => PopIf_sorted out pred s hs,
   fun ops => runStoreOps_sorted ops s hs,
   fun ops => runStoreOps_sorted ops [] List.Pairwise.nil⟩

/-- Witness of C1 on the sorted store with due times 1, 4, 4. -/
theorem sortedness_invariant_witness :
    SortedByDue [(⟨10, 1⟩ : Scheduled Nat), ⟨20, 4⟩, ⟨30, 4⟩] ∧
    SortedByDue (Push 40 4 [(⟨10, 1⟩ : Scheduled Nat), ⟨20, 4⟩, ⟨30, 4⟩]) ∧
    Push 40 4 [(⟨10, 1⟩ : Scheduled Nat), ⟨20, 4⟩, ⟨30, 4⟩] =
      [⟨10, 1⟩, ⟨20, 4⟩, ⟨30, 4⟩, ⟨40, 4⟩] :=
  ⟨by decide,
   (sortedness_invariant [(⟨10, 1⟩ : Scheduled Nat), ⟨20, 4⟩, ⟨30, 4⟩] (by decide)).1 40 4,
   by decide⟩

/-- C2. Tie-break on insertion: on a sorted store, `Push(value, due)` leaves the entries
with due time at most `due`, in their order, then the new entry, then the entries with
a greater due time, in their order. The new entry stands at the position that is the
number of entries due at most `due`, every entry behind it is due strictly later, and
erasing it gives the old store back: nothing is dropped, duplicated or reordered. -/
theorem Push_tie_break (s : Schedule T) (hs : SortedByDue s) (value : T)
    (due : TimePoint) :
    Push value due s =
      s.filter (fun e => decide (e.due ≤ due)) ++
        (⟨value, due⟩ : Scheduled T) :: s.filter (fun e => decide (due < e.due)) ∧
    (Push value due s)[(s.filter (fun e => decide (e.due ≤ due))).length]? =
      some ⟨value, due⟩ ∧
    (∀ e ∈ (Push value due s).drop
        ((s.filter (fun e => decide (e.due ≤ due))).length + 1), due < e.due) ∧
    (∀ e ∈ s, e.due = due →
      e ∈ (Push value due s).take (s.filter (fun e => decide (e.due ≤ due))).length) ∧
    (Push value due s).eraseIdx (s.filter (fun e => decide (e.due ≤ due))).length = s := by
  have h := Push_eq_filter value due s hs
  refine ⟨h, ?_, ?_, ?_, ?_⟩
  · rw [h, List.getElem?_append_right (le_refl _)]
    simp
  · intro e he
    rw [h, List.drop_append] at he
    simp only [List.drop_succ_cons, List.drop_zero] at he
    simpa using (List.mem_filter.mp he).2
  · intro e he hd
    rw [h, List.take_left']
    · exact List.mem_filter.mpr ⟨he, by simp [hd]⟩
    · rfl
  · rw [h, List.eraseIdx_append_of_length_le (le_refl _)]
    simp only [Nat.sub_self, List.eraseIdx_cons_zero]
    exact filter_le_append_filter_gt due s hs

/-- Witness of C2: a push at due time 4 goes behind both entries due at 4 and before
the entry due at 6. -/
theorem Push_tie_break_witness :
    SortedByDue [(⟨10, 1⟩ : Scheduled Nat), ⟨20, 4⟩, ⟨30, 4⟩, ⟨50, 6⟩] ∧
    Push 40 4 [(⟨10, 1⟩ : Scheduled Nat), ⟨20, 4⟩, ⟨30, 4⟩, ⟨50, 6⟩] =
      [⟨10, 1⟩, ⟨20, 4⟩, ⟨30, 4⟩] ++ ⟨40, 4⟩ :: [⟨50, 6⟩] :=
  ⟨by decide,
   (Push_tie_break [(⟨10, 1⟩ : Scheduled Nat), ⟨20, 4⟩, ⟨30, 4⟩, ⟨50, 6⟩] (by decide)
      40 4).1⟩

/-- C3. Ordering of a drain: after the calls `Push(v_i, due_i)` on an empty store, one
call of `PopIfDue` for each pushed entry, each with a time at or after every due time,
returns true every time and hands out the values in the order of the stable sort of the
push sequence by due time; the store is then empty, and every further call returns
false and leaves `*out` at the last value. The stable sort is sorted by due time, a
permutation of the push sequence, and keeps the entries of each due time in submission
order. -/
theorem drain_order (pushes : List (Scheduled T)) (times : List TimePoint) (out : T)
    (hlen : times.length = pushes.length)
    (hdue : ∀ t ∈ times, ∀ p ∈ pushes, p.due ≤ t) :
    (∀ extra : List TimePoint,
      popIfDueEach (times ++ extra) out (pushEach pushes []) =
        some ((stableSortByDue pushes).map (fun e => (true, e.value)) ++
            extra.map (fun _ =>
              (false, ((stableSortByDue pushes).map (fun e => e.value)).getLastD out)),
          ((stableSortByDue pushes).map (fun e => e.value)).getLastD out, [])) ∧
    SortedByDue (stableSortByDue pushes) ∧
    (stableSortByDue pushes).Perm pushes ∧
    (∀ d : TimePoint, (stableSortByDue pushes).filter (fun e => decide (e.due = d)) =
      pushes.filter (fun e => decide (e.due = d))) := by
  refine ⟨?_, stableSortByDue_sorted pushes, stableSortByDue_perm pushes,
    fun d => filter_due_stableSortByDue d pushes⟩
  intro extra
  rw [pushEach_nil_eq_stableSort]
  refine popIfDueEach_drain extra (stableSortByDue pushes) times out ?_ ?_
  · rw [hlen, (stableSortByDue_perm pushes).length_eq]
  · intro t ht e he
    exact hdue t ht e ((stableSortByDue_perm pushes).mem_iff.mp he)

/-- Witness of C3: four pushes with due times 5, 3, 5, 0 are drained at time 9 in the
order 0, 3, 5, 5, the two entries due at 5 in submission order, and a fifth call
returns false. -/
theorem drain_order_witness :
    popIfDueEach ([9, 9, 9, 9] ++ [9]) 0
        (pushEach [(⟨1, 5⟩ : Scheduled Nat), ⟨2, 3⟩, ⟨3, 5⟩, ⟨4, 0⟩] []) =
      some ((stableSortByDue
            [(⟨1, 5⟩ : Scheduled Nat), ⟨2, 3⟩, ⟨3, 5⟩, ⟨4, 0⟩]).map
              (fun e => (true, e.value)) ++
          [9].map (fun _ => (false, ((stableSortByDue
            [(⟨1, 5⟩ : Scheduled Nat), ⟨2, 3⟩, ⟨3, 5⟩, ⟨4, 0⟩]).map
              (fun e => e.value)).getLastD 0)),
        ((stableSortByDue [(⟨1, 5⟩ : Scheduled Nat), ⟨2, 3⟩, ⟨3, 5⟩, ⟨4, 0⟩]).map
          (fun e => e.value)).getLastD 0, []) ∧
    popIfDueEach ([9, 9, 9, 9] ++ [9]) 0
        (pushEach [(⟨1, 5⟩ : Scheduled Nat), ⟨2, 3⟩, ⟨3, 5⟩, ⟨4, 0⟩] []) =
      some ([(true, 4), (true, 2), (true, 1), (true, 3), (false, 3)], 3, []) :=
  ⟨(drain_order [(⟨1, 5⟩ : Scheduled Nat), ⟨2, 3⟩, ⟨3, 5⟩, ⟨4, 0⟩] [9, 9, 9, 9] 0
      (by decide) (by decide)).1 [9],
   by decide⟩

/-- C4. Due-gating of `PopIfDue`: the call returns, and it returns true exactly when the
store is not empty and its first entry is due at or before `time`. On true `*out` holds
that first entry's value and the store is the remaining entries in their order; on false
the store and `*out` are as before. On a sorted store the first entry is an earliest
one. -/
theorem PopIfDue_due_gating (out : T) (time : TimePoint) (s : Schedule T) :
    ∃ flag out' s', PopIfDue out time s = some (flag, out', s') ∧
      (flag = true ↔ ∃ e rest, s = e :: rest ∧ e.due ≤ time) ∧
      (flag = true → ∃ e rest, s = e :: rest ∧ out' = e.value ∧ s' = rest ∧
        (SortedByDue s → ∀ x ∈ s, e.due ≤ x.due)) ∧
      (flag = false → out' = out ∧ s' = s) := by
  obtain ⟨flag, out', s', h, hiff, ht, hf⟩ := PopIfDue_total out time s
  refine ⟨flag, out', s', h, hiff, ?_, hf⟩
  intro hflag
  obtain ⟨e, rest, rfl, ho, hr⟩ := ht hflag
  refine ⟨e, rest, rfl, ho, hr, ?_⟩
  intro hs x hx
  rcases List.mem_cons.mp hx with rfl | hx
  · exact le_refl _
  · exact (List.pairwise_cons.mp hs).1 x hx

/-- C5. `PopIf` removes the first match only: the call returns, and it returns true
exactly when some stored value satisfies `pred`. On true the store splits as
`pre ++ e :: post` where no value of `pre` satisfies `pred` and that of `e` does; `*out`
holds the value of `e` and the store is `pre ++ post`, so later matches in `post` stay.
On false the store and `*out` are as before. Due times play no part: the call takes no
time and the statement holds for entries due at any time. -/
theorem PopIf_first_match (out : T) (pred : T → Bool) (s : Schedule T) :
    ∃ flag out' s', PopIf out pred s = some (flag, out', s') ∧
      (flag = true ↔ ∃ x ∈ s, pred x.value = true) ∧
      (flag = true → ∃ pre e post, s = pre ++ e :: post ∧
        (∀ x ∈ pre, pred x.value = false) ∧ pred e.value = true ∧
        out' = e.value ∧ s' = pre ++ post) ∧
      (flag = false → out' = out ∧ s' = s) :=
  PopIf_total out pred s

end StoreTheorems

/-! ## `PopBlocking` and the assertions of the store -/

section BlockingTheorems

variable {T : Type}

/-- C15. `PopBlocking` returns only a due entry. Take any wake-ups of its waits:
notifications, spurious wake-ups and timeouts, with any calls of other threads on the
store in between and any clock readings. When `PopBlocking` returns, it has used up
some of the wake-ups; the store that the other threads left by then is `e :: s'`, not
empty, where `e` is the entry handed out and `s'` the store left behind, and `e` is due
at or before the last clock reading taken. When the store was sorted at the start, `e`
is an earliest entry of that store. -/
theorem PopBlocking_returns_due (events : List (Wake T)) (now : TimePoint) (out : T)
    (s : Schedule T) (out' : T) (s' : Schedule T)
    (h : PopBlocking events now out s = .returned out' s') :
    ∃ consumed rest e, events = consumed ++ rest ∧
      storeAfterWakes consumed s = some (e :: s') ∧ out' = e.value ∧
      e.due ≤ lastReading consumed now ∧
      (SortedByDue s → ∀ x ∈ e :: s', e.due ≤ x.due) := by
  have hmain : ∃ consumed rest e, events = consumed ++ rest ∧
      storeAfterWakes consumed s = some (e :: s') ∧ out' = e.value ∧
      e.due ≤ lastReading consumed now := by
    rcases fromTop_cases now out s with ⟨e, rest, hs, hdue, ha⟩ | ⟨place, ha⟩
    · simp only [PopBlocking, ha, Blocking.returned.injEq] at h
      obtain ⟨rfl, rfl⟩ := h
      exact ⟨[], events, e, rfl, by simp [storeAfterWakes, hs], rfl,
        by simpa [lastReading] using hdue⟩
    · simp only [PopBlocking, ha] at h
      exact PopBlockingLoop_returned events place out s now out' s' h
  obtain ⟨consumed, rest, e, hsplit, hstore, hout, hdue⟩ := hmain
  refine ⟨consumed, rest, e, hsplit, hstore, hout, hdue, ?_⟩
  intro hs x hx
  have hsorted := storeAfterWakes_sorted consumed s (e :: s') hs hstore
  rcases List.mem_cons.mp hx with rfl | hx
  · exact le_refl _
  · exact (List.pairwise_cons.mp hsorted).1 x hx

/-- Witness of C15. The store is empty at first. A push of an entry due at 50 wakes the
thread at clock 10, a spurious wake-up follows at 20, a push of an entry due at 30
wakes it at 25, and the wait times out at 31: the entry due at 30 is handed out. -/
theorem PopBlocking_returns_due_witness :
    PopBlocking [⟨[.push 7 50], false, 10⟩, ⟨[], false, 20⟩, ⟨[.push 8 30], false, 25⟩,
        ⟨[], true, 31⟩] 5 0 ([] : Schedule Nat) =
      .returned 8 [⟨7, 50⟩] ∧
    ∃ consumed rest e,
      [⟨[.push 7 50], false, 10⟩, ⟨[], false, 20⟩, ⟨[.push 8 30], false, 25⟩,
        (⟨[], true, 31⟩ : Wake Nat)] = consumed ++ rest ∧
      storeAfterWakes consumed ([] : Schedule Nat) = some (e :: [⟨7, 50⟩]) ∧
      8 = e.value ∧ e.due ≤ lastReading consumed 5 := by
  have h : PopBlocking [⟨[.push 7 50], false, 10⟩, ⟨[], false, 20⟩,
      ⟨[.push 8 30], false, 25⟩, ⟨[], true, 31⟩] 5 0 ([] : Schedule Nat) =
      .returned 8 [⟨7, 50⟩] := by decide
  obtain ⟨consumed, rest, e, h1, h2, h3, h4, -⟩ := PopBlocking_returns_due _ 5 0 [] 8 _ h
  exact ⟨h, consumed, rest, e, h1, h2, h3, h4⟩

/-- C17. The assertions of the store always hold. `DoPop` fails exactly when its
position is not that of an entry, which includes the empty store. `PopIfDue` calls it
at position 0 only when `HasDue` holds, and then the store is not empty; `PopIf` calls
it at the position `find_if` found only when that is not `end()`, and then it is the
position of an entry; so neither call ever fails. `PopBlocking` never fails either,
whatever the wake-ups: it reads `front()` and calls `DoPop` on a store that is not
empty. -/
theorem store_assertions_hold :
    (∀ (out : T) (k : Nat) (s : Schedule T), DoPop out k s = none ↔ s.length ≤ k) ∧
    (∀ (time : TimePoint) (s : Schedule T), HasDue time s = true → 0 < s.length) ∧
    (∀ (pred : T → Bool) (s : Schedule T),
      find_if pred s ≠ s.length → find_if pred s < s.length) ∧
    (∀ (out : T) (time : TimePoint) (s : Schedule T),
      ∃ r, PopIfDue out time s = some r) ∧
    (∀ (out : T) (pred : T → Bool) (s : Schedule T), ∃ r, PopIf out pred s = some r) ∧
    (∀ (events : List (Wake T)) (now : TimePoint) (out : T) (s : Schedule T),
      PopBlocking events now out s ≠ .failed) := by
  refine ⟨?_, ?_, ?_, ?_, ?_, ?_⟩
  · intro out k s
    constructor
    · intro h
      by_contra hk
      rw [DoPop_eq out k s (by omega)] at h
      exact absurd h (by simp)
    · intro h
      cases s with
      | nil => simp [DoPop]
      | cons a t =>
        have : (a :: t)[k]? = none := List.getElem?_eq_none h
        simp [DoPop, this]
  · intro time s h
    cases s with
    | nil => simp [HasDue] at h
    | cons a t => simp
  · intro pred s h
    exact lt_of_le_of_ne (find_if_le_length pred s) h
  · intro out time s
    obtain ⟨flag, out', s', h, -⟩ := PopIfDue_total out time s
    exact ⟨_, h⟩
  · intro out pred s
    obtain ⟨flag, out', s', h, -⟩ := PopIf_total out pred s
    exact ⟨_, h⟩
  · intro events now out s
    rcases fromTop_cases now out s with ⟨e, rest, -, -, ha⟩ | ⟨place, ha⟩
    · simp [PopBlocking, ha]
    · simp only [PopBlocking, ha]
      exact PopBlockingLoop_ne_failed events place out s

end BlockingTheorems

/-! ## The queue -/

section QueueTheorems

variable {P : Type}

/-- C6. Contract of `EnqueueAfterDelay(delay, operation)`, called when the clock reads
`now`: the store becomes `Push` of the entry with this operation and the id that the
counter held before the call, due at `now + delay`. That is the old entries plus this
one entry, and on a sorted store it stands behind the entries due at most `now + delay`
and before those due later. The sum `now + delay` is the one the source computes, on
signed 64-bit counts of milliseconds: it always is such a count, and it is the exact
sum whenever that is one. The counter advances by one as an `unsigned int`, the
shutdown flag is untouched, and the handle returned holds the address of this queue and
the id of the pushed entry. -/
theorem EnqueueAfterDelay_contract (this : Nat) (now : TimePoint) (delay : Int)
    (operation : Operation P) (q : AsyncQueue P) :
    (EnqueueAfterDelay this now delay operation q).2.schedule_ =
      Push ⟨operation, q.current_id_⟩ (timePointPlus now delay) q.schedule_ ∧
    (EnqueueAfterDelay this now delay operation q).2.schedule_.Perm
      ((⟨⟨operation, q.current_id_⟩, timePointPlus now delay⟩ : Scheduled (Entry P)) ::
        q.schedule_) ∧
    (SortedByDue q.schedule_ →
      (EnqueueAfterDelay this now delay operation q).2.schedule_ =
        q.schedule_.filter (fun e => decide (e.due ≤ timePointPlus now delay)) ++
          (⟨⟨operation, q.current_id_⟩, timePointPlus now delay⟩ : Scheduled (Entry P)) ::
            q.schedule_.filter (fun e => decide (timePointPlus now delay < e.due))) ∧
    timePointPlus now delay = wrapInt64 (now + delay) ∧
    IsInt64 (timePointPlus now delay) ∧
    (IsInt64 (now + delay) → timePointPlus now delay = now + delay) ∧
    (EnqueueAfterDelay this now delay operation q).2.current_id_ =
      (q.current_id_ + 1) % 2 ^ 32 ∧
    (q.current_id_ + 1 < 2 ^ 32 →
      (EnqueueAfterDelay this now delay operation q).2.current_id_ = q.current_id_ + 1) ∧
    (EnqueueAfterDelay this now delay operation q).2.shutting_down_ = q.shutting_down_ ∧
    (EnqueueAfterDelay this now delay operation q).1 = ⟨this, q.current_id_⟩ := by
  have hstate : (EnqueueAfterDelay this now delay operation q).2 =
      { schedule_ := Push ⟨operation, q.current_id_⟩ (timePointPlus now delay) q.schedule_,
        shutting_down_ := q.shutting_down_,
        current_id_ := (q.current_id_ + 1) % 2 ^ 32 } := rfl
  rw [hstate]
  refine ⟨rfl, Push_perm _ _ _, fun hs => Push_eq_filter _ _ _ hs, rfl,
    isInt64_wrapInt64 _, fun h => wrapInt64_of_isInt64 _ h, rfl, ?_, rfl, rfl⟩
  intro h
  exact Nat.mod_eq_of_lt h

/-- Witness of C6, once within the range and once with a sum that wraps. At clock 100 a
delay of 50 ms gives an entry due at 150, behind the entry due at 120. At clock 5 the
delay `milliseconds::max()` gives an entry due at `5 + (2 ^ 63 - 1) - 2 ^ 64`, which
`Push` puts before the entry due at the epoch. -/
theorem EnqueueAfterDelay_contract_witness :
    (EnqueueAfterDelay 1 100 50 (some 7)
        (⟨[⟨⟨some 1, 0⟩, 120⟩], false, 1⟩ : AsyncQueue Nat)).2.schedule_ =
      Push ⟨some 7, 1⟩ (timePointPlus 100 50) [⟨⟨some 1, 0⟩, 120⟩] ∧
    EnqueueAfterDelay 1 100 50 (some 7)
        (⟨[⟨⟨some 1, 0⟩, 120⟩], false, 1⟩ : AsyncQueue Nat) =
      (⟨1, 1⟩, ⟨[⟨⟨some 1, 0⟩, 120⟩, ⟨⟨some 7, 1⟩, 150⟩], false, 2⟩) ∧
    EnqueueAfterDelay 1 5 9223372036854775807 (some 7)
        (⟨[⟨⟨some 1, 0⟩, 0⟩], false, 1⟩ : AsyncQueue Nat) =
      (⟨1, 1⟩,
        ⟨[⟨⟨some 7, 1⟩, -9223372036854775804⟩, ⟨⟨some 1, 0⟩, 0⟩], false, 2⟩) :=
  ⟨(EnqueueAfterDelay_contract 1 100 50 (some 7)
      (⟨[⟨⟨some 1, 0⟩, 120⟩], false, 1⟩ : AsyncQueue Nat)).1,
   by decide, by decide⟩

/-- C7, as the source has it. `Enqueue(operation)` pushes the same entry, with the same
id, as `EnqueueAfterDelay(0 ms, operation)` and leaves the same id counter and shutdown
flag, but the entry is due at `TimePoint{}`, the epoch, and not at the clock reading
`now`. The two queue states are equal exactly when `now` is the epoch. The clock
reading is a signed 64-bit count of milliseconds; for an integer outside that range
the same holds of the count that `now + 0 ms` wraps to. -/
theorem Enqueue_vs_zero_delay (this : Nat) (now : TimePoint) (operation : Operation P)
    (q : AsyncQueue P) :
    (Enqueue operation q).schedule_ = Push ⟨operation, q.current_id_⟩ 0 q.schedule_ ∧
    (Enqueue operation q).current_id_ =
      (EnqueueAfterDelay this now 0 operation q).2.current_id_ ∧
    (Enqueue operation q).shutting_down_ =
      (EnqueueAfterDelay this now 0 operation q).2.shutting_down_ ∧
    (IsInt64 now →
      (EnqueueAfterDelay this now 0 operation q).2.schedule_ =
        Push ⟨operation, q.current_id_⟩ now q.schedule_ ∧
      (Enqueue operation q = (EnqueueAfterDelay this now 0 operation q).2 ↔ now = 0)) ∧
    (EnqueueAfterDelay this now 0 operation q).2.schedule_ =
      Push ⟨operation, q.current_id_⟩ (timePointPlus now 0) q.schedule_ ∧
    (Enqueue operation q = (EnqueueAfterDelay this now 0 operation q).2 ↔
      timePointPlus now 0 = 0) := by
  have hnow : Enqueue operation q =
      { schedule_ := Push ⟨operation, q.current_id_⟩ 0 q.schedule_,
        shutting_down_ := q.shutting_down_,
        current_id_ := (q.current_id_ + 1) % 2 ^ 32 } := rfl
  have hafter : (EnqueueAfterDelay this now 0 operation q).2 =
      { schedule_ := Push ⟨operation, q.current_id_⟩ (timePointPlus now 0) q.schedule_,
        shutting_down_ := q.shutting_down_,
        current_id_ := (q.current_id_ + 1) % 2 ^ 32 } := rfl
  have hiff : ∀ t : TimePoint,
      ((⟨Push ⟨operation, q.current_id_⟩ 0 q.schedule_, q.shutting_down_,
          (q.current_id_ + 1) % 2 ^ 32⟩ : AsyncQueue P) =
        ⟨Push ⟨operation, q.current_id_⟩ t q.schedule_, q.shutting_down_,
          (q.current_id_ + 1) % 2 ^ 32⟩) ↔ t = 0 := by
    intro t
    constructor
    · intro h
      have hs : ((Push (⟨operation, q.current_id_⟩ : Entry P) 0 q.schedule_).map
            (fun e => e.due)).sum =
          ((Push (⟨operation, q.current_id_⟩ : Entry P) t q.schedule_).map
            (fun e => e.due)).sum := by
        rw [(AsyncQueue.mk.inj h).1]
      rw [sum_due_Push, sum_due_Push] at hs
      exact (add_right_cancel hs).symm
    · intro h
      rw [h]
  rw [hnow, hafter]
  refine ⟨rfl, rfl, rfl, ?_, rfl, hiff _⟩
  intro hrange
  rw [timePointPlus_zero now hrange]
  exact ⟨rfl, hiff now⟩

/-- Counterexample to C7 as stated: on the empty queue, with the clock at 5 ms,
`Enqueue` leaves an entry due at 0 and `EnqueueAfterDelay(0 ms, _)` one due at 5; and
behind an entry due at 3 the two calls put the new entry at different positions. -/
theorem Enqueue_ne_zero_delay :
    Enqueue (some 7) (⟨[], false, 0⟩ : AsyncQueue Nat) ≠
      (EnqueueAfterDelay 1 5 0 (some 7) (⟨[], false, 0⟩ : AsyncQueue Nat)).2 ∧
    (Enqueue (some 7) (⟨[⟨⟨some 6, 0⟩, 3⟩], false, 1⟩ : AsyncQueue Nat)).schedule_ =
      [⟨⟨some 7, 1⟩, 0⟩, ⟨⟨some 6, 0⟩, 3⟩] ∧
    (EnqueueAfterDelay 1 5 0 (some 7)
        (⟨[⟨⟨some 6, 0⟩, 3⟩], false, 1⟩ : AsyncQueue Nat)).2.schedule_ =
      [⟨⟨some 6, 0⟩, 3⟩, ⟨⟨some 7, 1⟩, 5⟩] := by
  decide

/-- C8. Immediate work is first-in-first-out and overtakes pending delayed work. After
any sequence of `Enqueue` and `EnqueueAfterDelay` calls on a queue with an empty store,
each delayed entry due after `TimePoint{}` (its due time is the sum `now + delay` as the
source computes it on signed 64-bit counts), the store is `imm ++ del`: `imm` holds the
operations submitted with `Enqueue`, in submission order and due at the epoch, and `del`
holds the operations submitted with `EnqueueAfterDelay`, all due later. One call of
`PopIfDue` per immediate submission, at any times not before the epoch, hands out
exactly the entries of `imm` in that order and leaves `del`. -/
theorem immediate_overtakes_delayed (this : Nat) (cs : List (Submission P))
    (q : AsyncQueue P) (hq : q.schedule_ = []) (hcs : delayedAfterEpoch cs) :
    ∃ imm del : Schedule (Entry P),
      (submitEach this cs q).schedule_ = imm ++ del ∧
      imm.map (fun e => e.value.operation) = immediateOps cs ∧
      (∀ e ∈ imm, e.due = 0) ∧
      (del.map (fun e => e.value.operation)).Perm (delayedOps cs) ∧
      (∀ e ∈ del, 0 < e.due) ∧
      ∀ (times : List TimePoint) (out : Entry P),
        times.length = imm.length → (∀ t ∈ times, 0 ≤ t) →
        popIfDueEach times out (submitEach this cs q).schedule_ =
          some (imm.map (fun e => (true, e.value)),
            (imm.map (fun e => e.value)).getLastD out, del) := by
  have h0 : ImmediateFirst q.schedule_ [] [] :=
    ⟨by rw [hq]; rfl, by rw [hq]; exact List.Pairwise.nil, by simp, by simp⟩
  obtain ⟨imm, del, h, hi, hd⟩ := submitEach_immediateFirst this cs q [] [] h0 hcs
  refine ⟨imm, del, h.split, by simpa using hi, h.imm_due, by simpa using hd, h.del_due, ?_⟩
  intro times out hlen ht
  rw [h.split]
  refine popIfDueEach_front imm del times out hlen ?_
  intro t htm e he
  rw [h.imm_due e he]
  exact ht t htm

/-- Witness of C8: operations 1, 2, 3 submitted with `Enqueue`, then 4 delayed by 50 ms
at clock 100, then 5 with `Enqueue`. The store holds 1, 2, 3, 5 and then 4, and four
pops at the epoch hand out 1, 2, 3, 5. A delay of `milliseconds::max()` at clock 5 is
outside the premise: its due time wraps to a time before the epoch, and the delayed
entry stands before the immediate one. -/
theorem immediate_overtakes_delayed_witness :
    (∃ imm del : Schedule (Entry Nat),
      (submitEach 1 [.immediate (some 1), .immediate (some 2), .immediate (some 3),
          .delayed 100 50 (some 4), .immediate (some 5)]
        (⟨[], false, 0⟩ : AsyncQueue Nat)).schedule_ = imm ++ del ∧
      imm.map (fun e => e.value.operation) = [some 1, some 2, some 3, some 5] ∧
      (del.map (fun e => e.value.operation)).Perm [some 4]) ∧
    (submitEach 1 [.immediate (some 1), .immediate (some 2), .immediate (some 3),
          .delayed 100 50 (some 4), .immediate (some 5)]
        (⟨[], false, 0⟩ : AsyncQueue Nat)).schedule_ =
      [⟨⟨some 1, 0⟩, 0⟩, ⟨⟨some 2, 1⟩, 0⟩, ⟨⟨some 3, 2⟩, 0⟩, ⟨⟨some 5, 4⟩, 0⟩,
        ⟨⟨some 4, 3⟩, 150⟩] ∧
    popIfDueEach [0, 0, 0, 0] Entry.default
        (submitEach 1 [.immediate (some 1), .immediate (some 2), .immediate (some 3),
          .delayed 100 50 (some 4), .immediate (some 5)]
        (⟨[], false, 0⟩ : AsyncQueue Nat)).schedule_ =
      some ([(true, ⟨some 1, 0⟩), (true, ⟨some 2, 1⟩), (true, ⟨some 3, 2⟩),
          (true, ⟨some 5, 4⟩)], ⟨some 5, 4⟩, [⟨⟨some 4, 3⟩, 150⟩]) ∧
    ¬ delayedAfterEpoch
      [.immediate (some 1), (.delayed 5 9223372036854775807 (some 7) : Submission Nat)] ∧
    (submitEach 1 [.immediate (some 1), .delayed 5 9223372036854775807 (some 7)]
        (⟨[], false, 0⟩ : AsyncQueue Nat)).schedule_ =
      [⟨⟨some 7, 1⟩, -9223372036854775804⟩, ⟨⟨some 1, 0⟩, 0⟩] := by
  refine ⟨?_, by decide, by decide, by decide, by decide⟩
  obtain ⟨imm, del, h1, h2, -, h4, -⟩ :=
    immediate_overtakes_delayed 1 [Submission.immediate (some 1),
        Submission.immediate (some 2), Submission.immediate (some 3),
        Submission.delayed 100 50 (some 4), Submission.immediate (some 5)]
      (⟨[], false, 0⟩ : AsyncQueue Nat) rfl
      (by decide)
  exact ⟨imm, del, h1, h2, h4⟩

/-- C9. Cancellation exactness: on a store whose entries have pairwise distinct ids,
the calls `TryCancel(id)` for any list of ids, absent and repeated ids included, all
return and leave exactly the entries whose id is not in the list, in their order, and
nothing else of the queue changes. A second `TryCancel` of the same id changes nothing,
and neither does a `TryCancel` of an id that no entry carries. -/
theorem cancellation_exactness (q : AsyncQueue P)
    (hq : (q.schedule_.map (fun e => e.value.id)).Nodup) (ids : List Id) :
    tryCancelEach ids q =
      some { q with
        schedule_ := q.schedule_.filter (fun e => decide (e.value.id ∉ ids)) } ∧
    (∀ id, ∃ q1, TryCancel id q = some ((), q1) ∧ TryCancel id q1 = some ((), q1)) ∧
    (∀ id, (∀ e ∈ q.schedule_, e.value.id ≠ id) → TryCancel id q = some ((), q)) := by
  refine ⟨tryCancelEach_eq_filter ids q hq, ?_, ?_⟩
  · intro id
    refine ⟨_, TryCancel_eq_filter id q hq, ?_⟩
    rw [TryCancel_eq_filter id _ (nodup_ids_filter q.schedule_ _ hq)]
    simp [List.filter_filter]
  · intro id hid
    rw [TryCancel_eq_filter id q hq]
    have : q.schedule_.filter (fun e => e.value.id != id) = q.schedule_ :=
      List.filter_eq_self.mpr (fun a ha => by simpa using hid a ha)
    rw [this]

/-- Witness of C9: of the entries with ids 0, 1, 2, 3, cancelling 2, 7, 0, 2 leaves
those with ids 1 and 3. -/
theorem cancellation_exactness_witness :
    tryCancelEach [2, 7, 0, 2]
        (⟨[⟨⟨some 10, 0⟩, 5⟩, ⟨⟨some 11, 1⟩, 5⟩, ⟨⟨some 12, 2⟩, 8⟩, ⟨⟨some 13, 3⟩, 9⟩],
          false, 4⟩ : AsyncQueue Nat) =
      some ⟨[⟨⟨some 11, 1⟩, 5⟩, ⟨⟨some 13, 3⟩, 9⟩], false, 4⟩ :=
  (cancellation_exactness
    (⟨[⟨⟨some 10, 0⟩, 5⟩, ⟨⟨some 11, 1⟩, 5⟩, ⟨⟨some 12, 2⟩, 8⟩, ⟨⟨some 13, 3⟩, 9⟩],
      false, 4⟩ : AsyncQueue Nat) (by decide) [2, 7, 0, 2]).1

/-- C10, as the source has it. `TryCancel(id)` is a `void` function: it always returns,
and it returns no value. The `PopIf` call it makes yields true exactly when an entry
with this id was pending, and then the first such entry is removed from the store; it
yields false exactly when no such entry was pending, and then the store is unchanged.
`TryCancel` drops that flag and leaves the queue with the store `PopIf` left. -/
theorem TryCancel_outcome (id : Id) (q : AsyncQueue P) :
    ∃ flag out' s',
      PopIf Entry.default (fun e : Entry P => e.id == id) q.schedule_ =
        some (flag, out', s') ∧
      TryCancel id q = some ((), { q with schedule_ := s' }) ∧
      (flag = true ↔ ∃ e ∈ q.schedule_, e.value.id = id) ∧
      (flag = false ↔ ∀ e ∈ q.schedule_, e.value.id ≠ id) ∧
      (flag = true → ∃ pre e post, q.schedule_ = pre ++ e :: post ∧
        (∀ x ∈ pre, x.value.id ≠ id) ∧ e.value.id = id ∧ s' = pre ++ post) ∧
      (flag = false → s' = q.schedule_) := by
  obtain ⟨flag, out', s', h, hiff, ht, hf⟩ :=
    PopIf_total Entry.default (fun e : Entry P => e.id == id) q.schedule_
  have hiff' : flag = true ↔ ∃ e ∈ q.schedule_, e.value.id = id := by
    simpa using hiff
  refine ⟨flag, out', s', h, by simp [TryCancel, h], hiff', ?_, ?_, fun hflag => (hf hflag).2⟩
  · cases flag with
    | true =>
      simp only [Bool.true_eq_false, false_iff]
      intro hall
      obtain ⟨e, he, heid⟩ := hiff'.mp rfl
      exact hall e he heid
    | false =>
      simp only [true_iff]
      intro e he heid
      exact absurd (hiff'.mpr ⟨e, he, heid⟩) (by simp)
  · intro hflag
    obtain ⟨pre, e, post, hsplit, hpre, he, -, hs'⟩ := ht hflag
    refine ⟨pre, e, post, hsplit, ?_, by simpa using he, hs'⟩
    intro x hx
    simpa using hpre x hx

/-- Counterexample to C10 as stated: `TryCancel(0)` returns the same, the unit value,
on a queue where id 0 is pending, and the entry is removed, and on a queue where it is
not pending; so no boolean read off the returned value tells the two outcomes apart. -/
theorem TryCancel_reports_nothing :
    (TryCancel 0 (⟨[⟨⟨some 10, 0⟩, 5⟩], false, 1⟩ : AsyncQueue Nat)).map Prod.fst =
      (TryCancel 0 (⟨[⟨⟨some 11, 3⟩, 5⟩], false, 4⟩ : AsyncQueue Nat)).map Prod.fst ∧
    TryCancel 0 (⟨[⟨⟨some 10, 0⟩, 5⟩], false, 1⟩ : AsyncQueue Nat) =
      some ((), ⟨[], false, 1⟩) ∧
    TryCancel 0 (⟨[⟨⟨some 11, 3⟩, 5⟩], false, 4⟩ : AsyncQueue Nat) =
      some ((), ⟨[⟨⟨some 11, 3⟩, 5⟩], false, 4⟩) ∧
    ¬ ∃ report : Unit → Bool, ∀ (id : Id) (q : AsyncQueue Nat),
        ∃ r, TryCancel id q = some r ∧
          (report r.1 = true ↔ ∃ e ∈ q.schedule_, e.value.id = id) := by
  refine ⟨by decide, by decide, by decide, ?_⟩
  rintro ⟨report, h⟩
  obtain ⟨r1, h1, hr1⟩ := h 0 (⟨[⟨⟨some 10, 0⟩, 5⟩], false, 1⟩ : AsyncQueue Nat)
  obtain ⟨r2, h2, hr2⟩ := h 0 (⟨[⟨⟨some 11, 3⟩, 5⟩], false, 4⟩ : AsyncQueue Nat)
  have e1 : report () = true := by
    have : r1.1 = () := rfl
    rw [this] at hr1
    exact hr1.mpr ⟨_, List.mem_singleton_self _, rfl⟩
  have e2 : ¬ report () = true := by
    have : r2.1 = () := rfl
    rw [this] at hr2
    intro hrep
    obtain ⟨e, he, heid⟩ := hr2.mp hrep
    simp only [List.mem_singleton] at he
    rw [he] at heid
    exact absurd heid (by decide)
  exact e2 e1

end QueueTheorems

/-! ## Identifiers -/

section IdTheorems

variable {P : Type}

/-- C11. Identifier allocation on a freshly constructed queue: the submission at
position `k`, counted from `0` over `Enqueue` and `EnqueueAfterDelay` calls together, is
given the id `k mod 2 ^ 32`, and the entry it pushes into the store carries that id. So
two submissions less than `2 ^ 32` positions apart get distinct ids, and two submissions
exactly `2 ^ 32` positions apart get the same id. -/
theorem id_allocation (this : Nat) (cs : List (Submission P)) (k : Nat)
    (hk : k < cs.length) :
    (submitIds this cs AsyncQueue.fresh)[k]? = some (k % 2 ^ 32) ∧
    (∃ operation due,
      (submitEach this (cs.take (k + 1)) AsyncQueue.fresh).schedule_ =
        Push ⟨operation, k % 2 ^ 32⟩ due
          (submitEach this (cs.take k) AsyncQueue.fresh).schedule_) ∧
    (∀ i, i < k → k - i < 2 ^ 32 →
      (submitIds this cs AsyncQueue.fresh)[i]? ≠
        (submitIds this cs AsyncQueue.fresh)[k]?) ∧
    (∀ i, i + 2 ^ 32 = k →
      (submitIds this cs AsyncQueue.fresh)[i]? =
        (submitIds this cs AsyncQueue.fresh)[k]?) := by
  have hfresh : (AsyncQueue.fresh : AsyncQueue P).current_id_ = 0 % 2 ^ 32 := rfl
  have hid : ∀ i, i < cs.length →
      (submitIds this cs AsyncQueue.fresh)[i]? = some (i % 2 ^ 32) := by
    intro i hi
    have := submitIds_getElem? this cs AsyncQueue.fresh 0 hfresh i hi
    simpa using this
  refine ⟨hid k hk, ?_, ?_, ?_⟩
  · have htake : cs.take (k + 1) = cs.take k ++ [cs[k]] := by
      rw [List.take_succ, List.getElem?_eq_getElem hk]
      rfl
    obtain ⟨operation, due, h⟩ := Submission.apply_schedule this (cs[k])
      (submitEach this (cs.take k) AsyncQueue.fresh)
    have hk' := submitIds_take this cs AsyncQueue.fresh k hk
    rw [hid k hk] at hk'
    refine ⟨operation, due, ?_⟩
    rw [htake, submitEach_append, Option.some.inj hk']
    exact h
  · intro i hi hlt
    rw [hid i (by omega), hid k hk]
    intro h
    have h' : (i % 2 ^ 32 : Nat) = k % 2 ^ 32 := Option.some.inj h
    omega
  · intro i hi
    rw [hid i (by omega), hid k hk]
    have h' : (i % 2 ^ 32 : Nat) = k % 2 ^ 32 := by omega
    exact congrArg some h'

/-- Witness of C11: of five submissions on a fresh queue, the one at position 3 gets
id 3, and the ids given are 0, 1, 2, 3, 4. -/
theorem id_allocation_witness :
    (submitIds 1 [.immediate (some 10), .delayed 5 7 (some 11), .immediate none,
        .delayed 6 0 (some 13), .immediate (some 14)]
      (AsyncQueue.fresh : AsyncQueue Nat))[3]? = some (3 % 2 ^ 32) ∧
    submitIds 1 [.immediate (some 10), .delayed 5 7 (some 11), .immediate none,
        .delayed 6 0 (some 13), .immediate (some 14)]
      (AsyncQueue.fresh : AsyncQueue Nat) = [0, 1, 2, 3, 4] :=
  ⟨(id_allocation 1 [Submission.immediate (some 10), Submission.delayed 5 7 (some 11),
      Submission.immediate none, Submission.delayed 6 0 (some 13),
      Submission.immediate (some 14)] 3 (by decide)).1,
   by decide⟩

/-- C12. The first real submission shares id 0 with the shutdown sentinel. On a fresh
queue a first `Enqueue` leaves the one entry with id 0, a first `EnqueueAfterDelay`
leaves the one entry with id 0 and returns a handle with id 0, and either sets the
counter to 1. On any queue `UnblockQueue` pushes the entry with the no-op callable and
id 0, due at `TimePoint{}`, and leaves the id counter and the flag as they were. -/
theorem first_id_is_sentinel_id :
    (∀ operation : Operation P,
      Enqueue operation AsyncQueue.fresh = ⟨[⟨⟨operation, 0⟩, 0⟩], false, 1⟩) ∧
    (∀ (this : Nat) (now : TimePoint) (delay : Int) (operation : Operation P),
      EnqueueAfterDelay this now delay operation AsyncQueue.fresh =
        (⟨this, 0⟩, ⟨[⟨⟨operation, 0⟩, timePointPlus now delay⟩], false, 1⟩)) ∧
    (∀ (noop : P) (q : AsyncQueue P),
      (UnblockQueue noop q).schedule_ = Push ⟨some noop, 0⟩ 0 q.schedule_ ∧
      (UnblockQueue noop q).schedule_.Perm
        ((⟨⟨some noop, 0⟩, 0⟩ : Scheduled (Entry P)) :: q.schedule_) ∧
      (UnblockQueue noop q).current_id_ = q.current_id_ ∧
      (UnblockQueue noop q).shutting_down_ = q.shutting_down_) ∧
    (∀ noop : P, UnblockQueue noop AsyncQueue.fresh =
      ⟨[⟨⟨some noop, 0⟩, 0⟩], false, 0⟩) :=
  ⟨fun _ => rfl, fun _ _ _ _ => rfl,
   fun _ _ => ⟨rfl, Push_perm _ _ _, rfl, rfl⟩, fun _ => rfl⟩

/-- C16. Cancel undoes a delayed submission: when no pending entry carries the id about
to be allocated, `EnqueueAfterDelay(delay, operation)` followed by `TryCancel` of the id
in the returned handle leaves the store as it was before the submission, and the flag
too; only the id counter has advanced. The submitted entry is in the store in between
and is gone afterwards. -/
theorem cancel_undoes_submission (this : Nat) (now : TimePoint) (delay : Int)
    (operation : Operation P) (q : AsyncQueue P)
    (hq : ∀ e ∈ q.schedule_, e.value.id ≠ q.current_id_) :
    TryCancel (EnqueueAfterDelay this now delay operation q).1.id_
        (EnqueueAfterDelay this now delay operation q).2 =
      some ((), { q with current_id_ := (q.current_id_ + 1) % 2 ^ 32 }) ∧
    (⟨⟨operation, q.current_id_⟩, timePointPlus now delay⟩ : Scheduled (Entry P)) ∈
      (EnqueueAfterDelay this now delay operation q).2.schedule_ := by
  have hstate : EnqueueAfterDelay this now delay operation q =
      (⟨this, q.current_id_⟩,
        { schedule_ := Push ⟨operation, q.current_id_⟩ (timePointPlus now delay) q.schedule_,
          shutting_down_ := q.shutting_down_,
          current_id_ := (q.current_id_ + 1) % 2 ^ 32 }) := rfl
  rw [hstate]
  constructor
  · have hpush : Push (⟨operation, q.current_id_⟩ : Entry P) (timePointPlus now delay) q.schedule_ =
        q.schedule_.take (upper_bound q.schedule_ ⟨⟨operation, q.current_id_⟩, timePointPlus now delay⟩)
          ++ ⟨⟨operation, q.current_id_⟩, timePointPlus now delay⟩ ::
            q.schedule_.drop
              (upper_bound q.schedule_ ⟨⟨operation, q.current_id_⟩, timePointPlus now delay⟩) := rfl
    have hpop := PopIf_found (Entry.default : Entry P) (fun e : Entry P => e.id == q.current_id_)
      (q.schedule_.take (upper_bound q.schedule_ ⟨⟨operation, q.current_id_⟩, timePointPlus now delay⟩))
      ⟨⟨operation, q.current_id_⟩, timePointPlus now delay⟩
      (q.schedule_.drop (upper_bound q.schedule_ ⟨⟨operation, q.current_id_⟩, timePointPlus now delay⟩))
      (fun x hx => by simpa using hq x (List.mem_of_mem_take hx))
      (by simp)
    simp only [TryCancel, hpush, hpop, List.take_append_drop]
  · exact (Push_perm _ _ _).mem_iff.mpr (List.mem_cons_self _ _)

/-- Witness of C16 on a queue with two pending entries and the counter at 2. -/
theorem cancel_undoes_submission_witness :
    TryCancel (EnqueueAfterDelay 1 100 50 (some 9)
          (⟨[⟨⟨some 7, 0⟩, 120⟩, ⟨⟨some 8, 1⟩, 170⟩], false, 2⟩ : AsyncQueue Nat)).1.id_
        (EnqueueAfterDelay 1 100 50 (some 9)
          (⟨[⟨⟨some 7, 0⟩, 120⟩, ⟨⟨some 8, 1⟩, 170⟩], false, 2⟩ : AsyncQueue Nat)).2 =
      some ((), ⟨[⟨⟨some 7, 0⟩, 120⟩, ⟨⟨some 8, 1⟩, 170⟩], false, 3⟩) :=
  (cancel_undoes_submission 1 100 50 (some 9)
    (⟨[⟨⟨some 7, 0⟩, 120⟩, ⟨⟨some 8, 1⟩, 170⟩], false, 2⟩ : AsyncQueue Nat)
    (by decide)).1

/-- C18. Cancelling id 0 can remove the shutdown sentinel instead of the entry of the
user. Take a sorted store that holds a delayed entry `d` with id 0, due after
`TimePoint{}`, and no other entry with id 0. `UnblockQueue` puts the sentinel before
`d`, and a `TryCancel(0)` after it removes the sentinel: the queue is as it was before
`UnblockQueue`, with `d` still pending. -/
theorem cancel_zero_removes_sentinel (noop : P) (q : AsyncQueue P)
    (hs : SortedByDue q.schedule_) (pre post : Schedule (Entry P))
    (d : Scheduled (Entry P)) (hsplit : q.schedule_ = pre ++ d :: post)
    (hid : d.value.id = 0) (hdue : 0 < d.due)
    (hothers : ∀ e ∈ pre ++ post, e.value.id ≠ 0) :
    TryCancel 0 (UnblockQueue noop q) = some ((), q) ∧
    d ∈ q.schedule_ ∧
    (∃ front back, (UnblockQueue noop q).schedule_ =
      front ++ (⟨⟨some noop, 0⟩, 0⟩ : Scheduled (Entry P)) :: back ∧
      (∀ e ∈ front, e.value.id ≠ 0) ∧ d ∈ back) := by
  have hd : d ∈ q.schedule_ := by rw [hsplit]; simp
  have hpush := Push_eq_filter (⟨some noop, 0⟩ : Entry P) 0 q.schedule_ hs
  have hfront : ∀ x ∈ q.schedule_.filter (fun e => decide (e.due ≤ 0)),
      x.value.id ≠ 0 := by
    intro x hx
    obtain ⟨hx1, hx2⟩ := List.mem_filter.mp hx
    simp only [decide_eq_true_eq] at hx2
    rw [hsplit] at hx1
    rcases List.mem_append.mp hx1 with h | h
    · exact hothers x (List.mem_append.mpr (Or.inl h))
    · rcases List.mem_cons.mp h with rfl | h
      · exact absurd hx2 (not_le.mpr hdue)
      · exact hothers x (List.mem_append.mpr (Or.inr h))
  have hback : d ∈ q.schedule_.filter (fun e => decide (0 < e.due)) :=
    List.mem_filter.mpr ⟨hd, by simpa using hdue⟩
  refine ⟨?_, hd, _, _, hpush, hfront, hback⟩
  have hpop := PopIf_found (Entry.default : Entry P) (fun e : Entry P => e.id == 0)
    (q.schedule_.filter (fun e => decide (e.due ≤ 0))) ⟨⟨some noop, 0⟩, 0⟩
    (q.schedule_.filter (fun e => decide (0 < e.due)))
    (fun x hx => by simpa using hfront x hx) (by simp)
  simp only [TryCancel, UnblockQueue, hpush, hpop, filter_le_append_filter_gt 0 _ hs]

/-- Witness of C18: the delayed entry with id 0 stays, the sentinel goes. -/
theorem cancel_zero_removes_sentinel_witness :
    TryCancel 0 (UnblockQueue 99
        (⟨[⟨⟨some 8, 1⟩, 0⟩, ⟨⟨some 7, 0⟩, 150⟩, ⟨⟨some 9, 2⟩, 160⟩], false, 3⟩ :
          AsyncQueue Nat)) =
      some ((), ⟨[⟨⟨some 8, 1⟩, 0⟩, ⟨⟨some 7, 0⟩, 150⟩, ⟨⟨some 9, 2⟩, 160⟩], false, 3⟩) ∧
    (UnblockQueue 99
        (⟨[⟨⟨some 8, 1⟩, 0⟩, ⟨⟨some 7, 0⟩, 150⟩, ⟨⟨some 9, 2⟩, 160⟩], false, 3⟩ :
          AsyncQueue Nat)).schedule_ =
      [⟨⟨some 8, 1⟩, 0⟩, ⟨⟨some 99, 0⟩, 0⟩, ⟨⟨some 7, 0⟩, 150⟩, ⟨⟨some 9, 2⟩, 160⟩] :=
  ⟨(cancel_zero_removes_sentinel 99
      (⟨[⟨⟨some 8, 1⟩, 0⟩, ⟨⟨some 7, 0⟩, 150⟩, ⟨⟨some 9, 2⟩, 160⟩], false, 3⟩ :
        AsyncQueue Nat)
      (by decide) [⟨⟨some 8, 1⟩, 0⟩] [⟨⟨some 9, 2⟩, 160⟩] ⟨⟨some 7, 0⟩, 150⟩ rfl rfl
      (by decide) (by decide)).1,
   by decide⟩

end IdTheorems

/-! ## The worker and shutdown -/

section WorkerTheorems

variable {P : Type}

/-- C14, as the source has it. The worker tests `shutting_down_` only at the top of its
loop. Take any state in which the flag is set and any run from it. When the worker
stands at the loop test or is out of the loop, it pops and invokes nothing more, so no
pending entry is executed. When it holds an entry in flight, it pops nothing more and
invokes at most that entry. When it is inside `PopBlocking`, having passed the loop
test before the flag was set, it still pops at most one entry and invokes at most that
one; every other pending entry is never executed. -/
theorem shutdown_executes_at_most_one (σ : Sys P)
    (hflag : σ.queue.shutting_down_ = true) (steps : List (Step P)) :
    ((σ.worker = .loopTest ∨ σ.worker = .exited) →
      (Sys.run steps σ).popped = σ.popped ∧ (Sys.run steps σ).executed = σ.executed) ∧
    (∀ entry due, σ.worker = .invoke entry due →
      (Sys.run steps σ).popped = σ.popped ∧
      ((Sys.run steps σ).executed = σ.executed ∨
        (Sys.run steps σ).executed =
          σ.executed ++ (toExecuted ⟨entry, due⟩).toList)) ∧
    (σ.worker = .popBlocking →
      ((Sys.run steps σ).popped = σ.popped ∧ (Sys.run steps σ).executed = σ.executed) ∨
      ∃ x, (Sys.run steps σ).popped = σ.popped ++ [x] ∧
        ((Sys.run steps σ).executed = σ.executed ∨
          (Sys.run steps σ).executed = σ.executed ++ (toExecuted x).toList)) := by
  have h := Sys.windsDown_run steps σ hflag
  unfold Sys.windsDown at h
  refine ⟨?_, ?_, ?_⟩
  · rintro (hw | hw)
    · simp only [hw] at h
      exact ⟨h.2.1, h.2.2⟩
    · simp only [hw] at h
      exact ⟨h.2.1, h.2.2⟩
  · intro entry due hw
    simp only [hw] at h
    refine ⟨h.1, ?_⟩
    rcases h.2 with ⟨-, he⟩ | ⟨-, he⟩
    · exact Or.inl he
    · exact Or.inr he
  · intro hw
    simp only [hw] at h
    rcases h with ⟨-, hp, he⟩ | ⟨x, hp, hx⟩
    · exact Or.inl ⟨hp, he⟩
    · refine Or.inr ⟨x, hp, ?_⟩
      rcases hx with ⟨-, he⟩ | ⟨-, he⟩
      · exact Or.inl he
      · exact Or.inr he

/-- Witness of C14 as amended: the flag is set while the worker stands at the loop test
with an entry pending; nothing is popped or invoked afterwards. -/
theorem shutdown_executes_at_most_one_witness :
    (Sys.run [.enqueue (some 5), .setShuttingDown] (Sys.fresh 100 : Sys Nat)).worker =
      .loopTest ∧
    (Sys.run [.unblockQueue 0, .worker, .worker, .worker]
      (Sys.run [.enqueue (some 5), .setShuttingDown] (Sys.fresh 100 : Sys Nat))).executed =
      (Sys.run [.enqueue (some 5), .setShuttingDown] (Sys.fresh 100 : Sys Nat)).executed :=
  ⟨by decide,
   ((shutdown_executes_at_most_one
      (Sys.run [.enqueue (some 5), .setShuttingDown] (Sys.fresh 100 : Sys Nat))
      (by decide) [.unblockQueue 0, .worker, .worker, .worker]).1
        (Or.inl (by decide))).2⟩

/-- Counterexample to C14 as stated. The worker passes the loop test and enters
`PopBlocking` on the empty store; `Enqueue` pushes an entry; the destructor sets the
flag. At that moment the entry is pending in the store and the worker has popped
nothing. After `UnblockQueue` the worker pops that entry and invokes it. -/
theorem pending_entry_executed_after_shutdown :
    (Sys.run [.worker, .enqueue (some 5), .setShuttingDown]
        (Sys.fresh 100 : Sys Nat)) =
      ⟨⟨[⟨⟨some (0, 5), 0⟩, 0⟩], true, 1⟩, 100, .popBlocking, 1, [], []⟩ ∧
    (Sys.run [.unblockQueue 0, .worker, .worker, .worker]
        (Sys.run [.worker, .enqueue (some 5), .setShuttingDown]
          (Sys.fresh 100 : Sys Nat))) =
      ⟨⟨[⟨⟨some (1, 0), 0⟩, 0⟩], true, 1⟩, 100, .exited, 2,
        [⟨⟨some (0, 5), 0⟩, 0⟩], [⟨0, 5, 0, 0⟩]⟩ := by
  decide

/-- C19. Bounded work after shutdown begins. From any state in which `shutting_down_`
is set, over any run, whatever is pending in the store: the flag stays set, the worker
pops at most one further entry and invokes at most one further operation. It leaves the
loop at its next loop test: at once when it stands there, after invoking the entry in
hand when it holds one, and after one pop and one invocation when it is inside
`PopBlocking` with the front entry due. Once out of the loop it stays out. -/
theorem bounded_work_after_shutdown (σ : Sys P)
    (hflag : σ.queue.shutting_down_ = true) (steps : List (Step P)) :
    (Sys.run steps σ).queue.shutting_down_ = true ∧
    (∃ more, (Sys.run steps σ).popped = σ.popped ++ more ∧ more.length ≤ 1) ∧
    (∃ more, (Sys.run steps σ).executed = σ.executed ++ more ∧ more.length ≤ 1) ∧
    (σ.worker = .loopTest → (Sys.run [.worker] σ).worker = .exited) ∧
    (∀ entry due, σ.worker = .invoke entry due →
      (Sys.run [.worker, .worker] σ).worker = .exited) ∧
    (σ.worker = .popBlocking → HasDue σ.clock σ.queue.schedule_ = true →
      (Sys.run [.worker, .worker, .worker] σ).worker = .exited ∧
      (Sys.run [.worker, .worker, .worker] σ).popped.length = σ.popped.length + 1) ∧
    (σ.worker = .exited → (Sys.run steps σ).worker = .exited) := by
  have h := Sys.windsDown_run steps σ hflag
  unfold Sys.windsDown at h
  refine ⟨Sys.run_keeps_flag steps σ hflag, ?_, ?_, ?_, ?_, ?_, ?_⟩
  · cases hw : σ.worker with
    | loopTest => simp only [hw] at h; exact ⟨[], by simp [h.2.1], by simp⟩
    | exited => simp only [hw] at h; exact ⟨[], by simp [h.2.1], by simp⟩
    | invoke entry due => simp only [hw] at h; exact ⟨[], by simp [h.1], by simp⟩
    | popBlocking =>
      simp only [hw] at h
      rcases h with ⟨-, hp, -⟩ | ⟨x, hp, -⟩
      · exact ⟨[], by simp [hp], by simp⟩
      · exact ⟨[x], hp, by simp⟩
  · cases hw : σ.worker with
    | loopTest => simp only [hw] at h; exact ⟨[], by simp [h.2.2], by simp⟩
    | exited => simp only [hw] at h; exact ⟨[], by simp [h.2.2], by simp⟩
    | invoke entry due =>
      simp only [hw] at h
      rcases h.2 with ⟨-, he⟩ | ⟨-, he⟩
      · exact ⟨[], by simp [he], by simp⟩
      · exact ⟨_, he, toExecuted_toList_length _⟩
    | popBlocking =>
      simp only [hw] at h
      rcases h with ⟨-, -, he⟩ | ⟨x, -, hx⟩
      · exact ⟨[], by simp [he], by simp⟩
      · rcases hx with ⟨-, he⟩ | ⟨-, he⟩
        · exact ⟨[], by simp [he], by simp⟩
        · exact ⟨_, he, toExecuted_toList_length _⟩
  · intro hw
    show σ.workerStep.worker = .exited
    rw [Sys.workerStep_loopTest σ hw]
    simp [hflag]
  · intro entry due hw
    show σ.workerStep.workerStep.worker = .exited
    rw [Sys.workerStep_invoke σ entry due hw, Sys.workerStep_loopTest _ rfl]
    simp [hflag]
  · intro hw hdue
    show σ.workerStep.workerStep.workerStep.worker = .exited ∧
      σ.workerStep.workerStep.workerStep.popped.length = σ.popped.length + 1
    cases hs : σ.queue.schedule_ with
    | nil => rw [hs] at hdue; simp [HasDue] at hdue
    | cons e rest =>
      rw [hs] at hdue
      have he : e.due ≤ σ.clock := by simpa [HasDue] using hdue
      have hpop := Sys.workerStep_popBlocking_due σ hw e rest hs he
      have w1 : σ.workerStep.worker = .invoke e.value e.due := by rw [hpop]
      have f1 : σ.workerStep.queue.shutting_down_ = true := by rw [hpop]; exact hflag
      have p1 : σ.workerStep.popped = σ.popped ++ [e] := by rw [hpop]
      have hinv := Sys.workerStep_invoke σ.workerStep e.value e.due w1
      have w2 : σ.workerStep.workerStep.worker = .loopTest := by rw [hinv]
      have f2 : σ.workerStep.workerStep.queue.shutting_down_ = true := by
        rw [hinv]; exact f1
      have p2 : σ.workerStep.workerStep.popped = σ.popped ++ [e] := by rw [hinv]; exact p1
      rw [Sys.workerStep_loopTest σ.workerStep.workerStep w2]
      simp [f2, p2]
  · intro hw
    simp only [hw] at h
    exact h.1

/-- Witness of C19. Two operations are pending and the worker is inside `PopBlocking`
when the destructor runs. Of the three entries then in the store the worker pops and
invokes the first one and leaves the loop; the second operation and the sentinel stay
in the store. -/
theorem bounded_work_after_shutdown_witness :
    (Sys.run [.worker, .worker, .worker, .worker, .worker]
      (Sys.run [.worker, .enqueue (some 5), .enqueue (some 6), .setShuttingDown,
        .unblockQueue 0] (Sys.fresh 100 : Sys Nat))).queue.shutting_down_ = true ∧
    Sys.run [.worker, .worker, .worker, .worker, .worker]
      (Sys.run [.worker, .enqueue (some 5), .enqueue (some 6), .setShuttingDown,
        .unblockQueue 0] (Sys.fresh 100 : Sys Nat)) =
      ⟨⟨[⟨⟨some (1, 6), 1⟩, 0⟩, ⟨⟨some (2, 0), 0⟩, 0⟩], true, 2⟩, 100, .exited, 3,
        [⟨⟨some (0, 5), 0⟩, 0⟩], [⟨0, 5, 0, 0⟩]⟩ :=
  ⟨(bounded_work_after_shutdown
      (Sys.run [.worker, .enqueue (some 5), .enqueue (some 6), .setShuttingDown,
        .unblockQueue 0] (Sys.fresh 100 : Sys Nat))
      (by decide) [.worker, .worker, .worker, .worker, .worker]).1,
   by decide⟩

end WorkerTheorems

end firebase.firestore.util


